import Mathlib

/-!
Verification of the room-allocation heap of GoStructPrac (src/main.go).

The Go program maintains a binary max-heap of rooms ordered by a float32
score, accessed through Go's container/heap package.  This file gives a
shallow embedding:

* float32 values are modelled as exact rationals; every float32 arithmetic
  operation of the source is modelled by `fl`, round-to-nearest-even with a
  24-bit significand and unbounded exponent (all values reached by the
  program are in the normal range of binary32, so no overflow, underflow or
  NaN behaviour is involved).
* the heap is a `List Room`; Go's `container/heap` functions `Init`, `Push`,
  `Pop`, `Fix` and the loops `up`/`down` are translated literally, with the
  explicit fuel of `downAux`/`upAux` chosen large enough that it never runs
  out (the Go loops advance the cursor strictly each iteration).
* panics of fallible operations become `Except`-style error results, and the
  partial state mutation performed before a panic is retained, exactly as in
  Go where a recovered panic leaves the slice as it was at panic time.
-/

/-- Player of src/main.go: identity, display name, creation timestamp. -/
structure Player where
  CreatedAt : ℤ
  ID : ℤ
  Name : String
deriving DecidableEq

/-- Room of src/main.go.  `Players` is the Go `map[int]*Player`, modelled as
an association list with distinct keys (Go map semantics: keyed insertion
overwrites); `Score` is the cached float32 score as an exact rational;
`Index` is the room's slot in the heap's backing array (-1 when checked
out). -/
structure Room where
  ID : ℤ
  Capacity : ℤ
  Players : List (ℤ × Player)
  Score : ℚ
  State : ℤ
  Index : ℤ
deriving DecidableEq

instance : Inhabited Player := ⟨⟨0, 0, ""⟩⟩

instance : Inhabited Room := ⟨⟨0, 0, [], 0, 0, 0⟩⟩

/-- 2 ^ e over ℚ for an integer exponent, via Nat powers only (kept
evaluation-friendly for norm_num). -/
def pow2 (e : ℤ) : ℚ :=
  if 0 ≤ e then ((2 ^ e.toNat : ℕ) : ℚ) else 1 / ((2 ^ (-e).toNat : ℕ) : ℚ)

/-- Binary floor search for 0 ≤ x < 2 ^ bits: builds ⌊x⌋ bit by bit from the
top.  Written with explicit structural recursion so that concrete values
can be computed inside proofs by rewriting. -/
def floorAux (x : ℚ) : ℕ → ℤ → ℤ
  | 0, lo => lo
  | i + 1, lo => if ((lo + 2 ^ i : ℤ) : ℚ) ≤ x then floorAux x i (lo + 2 ^ i) else floorAux x i lo

/-- Round a rational in [0, 2 ^ 24) to the nearest integer, ties to even
(IEEE-754 default rounding).  `fl` only calls this on scaled significands
in [2 ^ 23, 2 ^ 24), where the 24-bit binary floor search is exact. -/
def roundHalfEven (x : ℚ) : ℤ :=
  let n := floorAux x 24 0
  let r := x - (n : ℚ)
  if r < 1 / 2 then n
  else if 1 / 2 < r then n + 1
  else if n % 2 = 0 then n else n + 1

/-- Binary exponent search: the unique e with 2 ^ e ≤ a < 2 ^ (e + 1) for a
positive rational a, found by walking from 0 (fuel-bounded structural
recursion; fuel 600 covers every exponent reachable in this development). -/
def findEAux (a : ℚ) : ℕ → ℤ → ℤ
  | 0, e => e
  | fuel + 1, e =>
    if a < pow2 e then findEAux a fuel (e - 1)
    else if pow2 (e + 1) ≤ a then findEAux a fuel (e + 1)
    else e

def findE (a : ℚ) : ℤ := findEAux a 600 0

/-- Round a rational to the nearest binary32 value (24-bit significand,
round to nearest, ties to even).  Exponents are unbounded: every float32
quantity of src/main.go lies in the normal range, where binary32 rounding
agrees with this function. -/
def fl (q : ℚ) : ℚ :=
  if q = 0 then 0
  else
    let s : ℚ := if q < 0 then -1 else 1
    let a := |q|
    let e := findE a
    s * (roundHalfEven (a * pow2 (23 - e)) : ℚ) * pow2 (e - 23)

/-- calRoomScore of src/main.go, performing each float32 operation of
`x := float32(count)/float32(capacity); d := x - 0.2; d2 := d*d;
return -7.8125*d2 + 5 - float32(state)` with correct binary32 rounding.
The literals -7.8125, 5, and every rounded intermediate are exact binary32
values, and the Go literal 0.2 is the binary32 nearest to 1/5. -/
def calRoomScore (playerListCount capacity currentRoomState : ℤ) : ℚ :=
  let x := fl (fl (playerListCount : ℚ) / fl (capacity : ℚ))
  let d := fl (x - fl (1 / 5))
  let d2 := fl (d * d)
  fl (fl (fl (-(125 / 16 : ℚ) * d2) + 5) - fl (currentRoomState : ℚ))

/-- The float32 evaluation of the Score Function formula as worded in the
spec, section 4.1: x = count / capacity, d = x - 0.2,
score = -7.8125 * d * d + 5 - penalty, every operation performed in
binary32.  Used to compare the spec's formula with `calRoomScore`. -/
def specScoreF32 (count capacity penalty : ℤ) : ℚ :=
  let x := fl (fl (count : ℚ) / fl (capacity : ℚ))
  let d := fl (x - fl (1 / 5))
  fl (fl (fl (-(125 / 16 : ℚ) * fl (d * d)) + 5) - fl (penalty : ℚ))

/-- The Score Function formula of the spec in exact (real) arithmetic:
score = -7.8125 * (count / capacity - 0.2) ^ 2 + 5 - penalty. -/
def specScoreR (count capacity penalty : ℚ) : ℚ :=
  -(125 / 16) * (count / capacity - 1 / 5) ^ 2 + 5 - penalty

theorem pow2_eq_zpow (e : ℤ) : pow2 e = (2 : ℚ) ^ e := by
  unfold pow2
  by_cases h : 0 ≤ e
  · rw [if_pos h]
    push_cast
    rw [← zpow_natCast (2 : ℚ) e.toNat, Int.toNat_of_nonneg h]
  · rw [if_neg h]
    push_cast
    rw [← zpow_natCast (2 : ℚ) (-e).toNat, Int.toNat_of_nonneg (by omega : (0 : ℤ) ≤ -e)]
    rw [zpow_neg, one_div, inv_inv]

theorem pow2_pos (e : ℤ) : 0 < pow2 e := by
  rw [pow2_eq_zpow]; positivity

theorem pow2_mul_pow2 (a b : ℤ) : pow2 a * pow2 b = pow2 (a + b) := by
  rw [pow2_eq_zpow, pow2_eq_zpow, pow2_eq_zpow, ← zpow_add₀ (by norm_num : (2:ℚ) ≠ 0)]

theorem pow2_lt_pow2 {a b : ℤ} (h : a < b) : pow2 a < pow2 b := by
  rw [pow2_eq_zpow, pow2_eq_zpow]
  exact zpow_lt_zpow_right₀ (by norm_num) h

theorem floorAux_eq (x : ℚ) :
    ∀ (i : ℕ) (lo : ℤ), (lo : ℚ) ≤ x → x < lo + 2 ^ i → floorAux x i lo = ⌊x⌋ := by
  intro i
  induction i with
  | zero =>
    intro lo h1 h2
    simp only [floorAux]
    symm
    rw [Int.floor_eq_iff]
    constructor
    · exact h1
    · simpa using h2
  | succ i ih =>
    intro lo h1 h2
    simp only [floorAux]
    by_cases hc : ((lo + 2 ^ i : ℤ) : ℚ) ≤ x
    · rw [if_pos hc]
      apply ih
      · exact hc
      · push_cast
        push_cast at h2
        rw [pow_succ] at h2
        linarith
    · rw [if_neg hc]
      apply ih
      · exact h1
      · push_cast at hc ⊢
        linarith

theorem roundHalfEven_near (x : ℚ) (m : ℤ) (h0 : (0 : ℚ) ≤ x) (hub : x < 2 ^ 24)
    (hm : |x - (m : ℚ)| < 1 / 2) : roundHalfEven x = m := by
  have hfl : floorAux x 24 0 = ⌊x⌋ :=
    floorAux_eq x 24 0 (by exact_mod_cast h0) (by push_cast; linarith)
  have hf1 : (⌊x⌋ : ℚ) ≤ x := Int.floor_le x
  have hf2 : x < ⌊x⌋ + 1 := Int.lt_floor_add_one x
  rw [abs_lt] at hm
  unfold roundHalfEven
  rw [hfl]
  by_cases hc : x - (⌊x⌋ : ℚ) < 1 / 2
  · rw [if_pos hc]
    have hI1 : m - 1 < ⌊x⌋ := by
      have : ((m : ℚ) - 1) < (⌊x⌋ : ℚ) := by linarith
      exact_mod_cast this
    have hI2 : ⌊x⌋ < m + 1 := by
      have : (⌊x⌋ : ℚ) < (m : ℚ) + 1 := by linarith
      exact_mod_cast this
    omega
  · rw [if_neg hc]
    push_neg at hc
    by_cases hc2 : 1 / 2 < x - (⌊x⌋ : ℚ)
    · rw [if_pos hc2]
      have hI1 : ⌊x⌋ < m := by
        have : (⌊x⌋ : ℚ) < (m : ℚ) := by linarith
        exact_mod_cast this
      have hI2 : m - 1 ≤ ⌊x⌋ := Int.le_floor.mpr (by push_cast; linarith)
      omega
    · exfalso
      push_neg at hc2
      have hxe : x = (⌊x⌋ : ℚ) + 1 / 2 := by linarith
      have hI1 : (⌊x⌋ : ℚ) < (m : ℚ) := by linarith
      have hI2 : (m : ℚ) < (⌊x⌋ : ℚ) + 1 := by linarith
      have h1 : ⌊x⌋ < m := by exact_mod_cast hI1
      have h2 : (m : ℚ) < ((⌊x⌋ + 1 : ℤ) : ℚ) := by push_cast; linarith
      have h3 : m < ⌊x⌋ + 1 := by exact_mod_cast h2
      omega

theorem roundHalfEven_tie_even (x : ℚ) (m : ℤ) (h0 : (0 : ℚ) ≤ x) (hub : x < 2 ^ 24)
    (hx : x = (m : ℚ) + 1 / 2) (hev : m % 2 = 0) : roundHalfEven x = m := by
  have hfx : ⌊x⌋ = m := by
    rw [Int.floor_eq_iff]
    constructor
    · rw [hx]; linarith
    · rw [hx]; push_cast; linarith
  have hfl : floorAux x 24 0 = ⌊x⌋ :=
    floorAux_eq x 24 0 (by exact_mod_cast h0) (by push_cast; linarith)
  unfold roundHalfEven
  rw [hfl, hfx]
  have hr : x - (m : ℚ) = 1 / 2 := by rw [hx]; ring
  norm_num [hr, hev]

theorem findEAux_eq (a : ℚ) (e : ℤ) (he1 : pow2 e ≤ a) (he2 : a < pow2 (e + 1)) :
    ∀ (fuel : ℕ) (e0 : ℤ), (e - e0).natAbs ≤ fuel → findEAux a fuel e0 = e := by
  intro fuel
  induction fuel with
  | zero =>
    intro e0 h
    have : e = e0 := by omega
    simp [findEAux, this]
  | succ fuel ih =>
    intro e0 h
    simp only [findEAux]
    by_cases h1 : a < pow2 e0
    · rw [if_pos h1]
      have hlt : e < e0 := by
        by_contra hge
        push_neg at hge
        have : pow2 e0 ≤ pow2 e := by
          rcases eq_or_lt_of_le hge with rfl | hlt2
          · exact le_rfl
          · exact le_of_lt (pow2_lt_pow2 hlt2)
        linarith
      exact ih (e0 - 1) (by omega)
    · rw [if_neg h1]
      push_neg at h1
      by_cases h2 : pow2 (e0 + 1) ≤ a
      · rw [if_pos h2]
        have hgt : e0 < e := by
          by_contra hge
          push_neg at hge
          have : pow2 (e + 1) ≤ pow2 (e0 + 1) := by
            rcases eq_or_lt_of_le hge with rfl | hlt2
            · exact le_rfl
            · exact le_of_lt (pow2_lt_pow2 (by omega))
          linarith
        exact ih (e0 + 1) (by omega)
      · rw [if_neg h2]
        push_neg at h2
        by_cases heq : e0 = e
        · exact heq
        · exfalso
          rcases lt_or_gt_of_ne heq with hlt | hgt
          · have : pow2 (e0 + 1) ≤ pow2 e := by
              rcases eq_or_lt_of_le (by omega : e0 + 1 ≤ e) with h3 | h3
              · rw [h3]
              · exact le_of_lt (pow2_lt_pow2 h3)
            linarith
          · have : pow2 (e + 1) ≤ pow2 e0 := by
              rcases eq_or_lt_of_le (by omega : e + 1 ≤ e0) with h3 | h3
              · rw [h3]
              · exact le_of_lt (pow2_lt_pow2 h3)
            linarith

theorem findE_eq (a : ℚ) (e : ℤ) (he1 : pow2 e ≤ a) (he2 : a < pow2 (e + 1))
    (hfuel : e.natAbs ≤ 600) : findE a = e :=
  findEAux_eq a e he1 he2 600 0 (by omega)

theorem fl_zero : fl 0 = 0 := by simp [fl]

theorem fl_neg (q : ℚ) : fl (-q) = -fl q := by
  unfold fl
  by_cases h : q = 0
  · simp [h]
  · rw [if_neg h, if_neg (neg_ne_zero.mpr h), abs_neg]
    rcases lt_or_gt_of_ne h with hneg | hpos
    · rw [if_neg (by linarith : ¬(-q < 0)), if_pos hneg]
      ring
    · rw [if_pos (by linarith : -q < 0), if_neg (by linarith : ¬(q < 0))]
      ring

theorem fl_eq_pos (q : ℚ) (e m : ℤ) (h0 : 0 < q)
    (he1 : pow2 e ≤ q) (he2 : q < pow2 (e + 1)) (hfuel : e.natAbs ≤ 600)
    (hm : |q * pow2 (23 - e) - (m : ℚ)| < 1 / 2) :
    fl q = (m : ℚ) * pow2 (e - 23) := by
  unfold fl
  rw [if_neg (ne_of_gt h0), if_neg (by linarith : ¬(q < 0)), abs_of_pos h0]
  dsimp only
  rw [findE_eq q e he1 he2 hfuel]
  rw [roundHalfEven_near (q * pow2 (23 - e)) m
      (le_of_lt (mul_pos h0 (pow2_pos _)))
      (by
        have h24 : q * pow2 (23 - e) < pow2 (e + 1) * pow2 (23 - e) :=
          (mul_lt_mul_right (pow2_pos _)).mpr he2
        rw [pow2_mul_pow2] at h24
        have : e + 1 + (23 - e) = 24 := by ring
        rw [this] at h24
        calc q * pow2 (23 - e) < pow2 24 := h24
          _ = 2 ^ 24 := by rw [pow2_eq_zpow]; norm_num)
      hm]
  ring

theorem fl_eq_pos_tie (q : ℚ) (e m : ℤ) (h0 : 0 < q)
    (he1 : pow2 e ≤ q) (he2 : q < pow2 (e + 1)) (hfuel : e.natAbs ≤ 600)
    (hm : q * pow2 (23 - e) = (m : ℚ) + 1 / 2) (hev : m % 2 = 0) :
    fl q = (m : ℚ) * pow2 (e - 23) := by
  unfold fl
  rw [if_neg (ne_of_gt h0), if_neg (by linarith : ¬(q < 0)), abs_of_pos h0]
  dsimp only
  rw [findE_eq q e he1 he2 hfuel]
  rw [roundHalfEven_tie_even (q * pow2 (23 - e)) m
      (le_of_lt (mul_pos h0 (pow2_pos _)))
      (by
        have h24 : q * pow2 (23 - e) < pow2 (e + 1) * pow2 (23 - e) :=
          (mul_lt_mul_right (pow2_pos _)).mpr he2
        rw [pow2_mul_pow2] at h24
        have : e + 1 + (23 - e) = 24 := by ring
        rw [this] at h24
        calc q * pow2 (23 - e) < pow2 24 := h24
          _ = 2 ^ 24 := by rw [pow2_eq_zpow]; norm_num)
      hm hev]
  ring

theorem roundHalfEven_tie_odd (x : ℚ) (m : ℤ) (h0 : (0 : ℚ) ≤ x) (hub : x < 2 ^ 24)
    (hx : x = (m : ℚ) + 1 / 2) (hodd : m % 2 = 1) : roundHalfEven x = m + 1 := by
  have hfx : ⌊x⌋ = m := by
    rw [Int.floor_eq_iff]
    constructor
    · rw [hx]; linarith
    · rw [hx]; push_cast; linarith
  have hfl : floorAux x 24 0 = ⌊x⌋ :=
    floorAux_eq x 24 0 (by exact_mod_cast h0) (by push_cast; linarith)
  unfold roundHalfEven
  rw [hfl, hfx]
  have hr : x - (m : ℚ) = 1 / 2 := by rw [hx]; ring
  norm_num [hr]
  omega

theorem fl_eq_pos_tie_odd (q : ℚ) (e m : ℤ) (h0 : 0 < q)
    (he1 : pow2 e ≤ q) (he2 : q < pow2 (e + 1)) (hfuel : e.natAbs ≤ 600)
    (hm : q * pow2 (23 - e) = (m : ℚ) + 1 / 2) (hodd : m % 2 = 1) :
    fl q = ((m : ℚ) + 1) * pow2 (e - 23) := by
  unfold fl
  rw [if_neg (ne_of_gt h0), if_neg (by linarith : ¬(q < 0)), abs_of_pos h0]
  dsimp only
  rw [findE_eq q e he1 he2 hfuel]
  rw [roundHalfEven_tie_odd (q * pow2 (23 - e)) m
      (le_of_lt (mul_pos h0 (pow2_pos _)))
      (by
        have h24 : q * pow2 (23 - e) < pow2 (e + 1) * pow2 (23 - e) :=
          (mul_lt_mul_right (pow2_pos _)).mpr he2
        rw [pow2_mul_pow2] at h24
        have : e + 1 + (23 - e) = 24 := by ring
        rw [this] at h24
        calc q * pow2 (23 - e) < pow2 24 := h24
          _ = 2 ^ 24 := by rw [pow2_eq_zpow]; norm_num)
      hm hodd]
  push_cast
  ring
theorem flv0 : fl (4 : ℚ) = (4 : ℚ) := by
  rw [fl_eq_pos (4 : ℚ) 2 8388608 (by norm_num) (by norm_num [pow2_eq_zpow])
    (by norm_num [pow2_eq_zpow]) (by decide)
    (by rw [abs_lt]; constructor <;> norm_num [pow2_eq_zpow])]
  norm_num [pow2_eq_zpow]

theorem flv1 : fl (1 / 5 : ℚ) = (13421773 / 67108864 : ℚ) := by
  rw [fl_eq_pos (1 / 5 : ℚ) (-3) 13421773 (by norm_num) (by norm_num [pow2_eq_zpow])
    (by norm_num [pow2_eq_zpow]) (by decide)
    (by rw [abs_lt]; constructor <;> norm_num [pow2_eq_zpow])]
  norm_num [pow2_eq_zpow]

theorem flv2 : fl (13421773 / 67108864 : ℚ) = (13421773 / 67108864 : ℚ) := by
  rw [fl_eq_pos (13421773 / 67108864 : ℚ) (-3) 13421773 (by norm_num) (by norm_num [pow2_eq_zpow])
    (by norm_num [pow2_eq_zpow]) (by decide)
    (by rw [abs_lt]; constructor <;> norm_num [pow2_eq_zpow])]
  norm_num [pow2_eq_zpow]

theorem flv3n : fl (-(13421773 / 67108864 : ℚ)) = -((13421773 / 67108864 : ℚ)) := by
  rw [show (-(13421773 / 67108864 : ℚ)) = -((13421773 / 67108864 : ℚ)) from by norm_num, fl_neg, flv2]

theorem flv4 : fl (180143990463529 / 4503599627370496 : ℚ) = (10737419 / 268435456 : ℚ) := by
  rw [fl_eq_pos (180143990463529 / 4503599627370496 : ℚ) (-5) 10737419 (by norm_num) (by norm_num [pow2_eq_zpow])
    (by norm_num [pow2_eq_zpow]) (by decide)
    (by rw [abs_lt]; constructor <;> norm_num [pow2_eq_zpow])]
  norm_num [pow2_eq_zpow]

theorem flv5 : fl (1342177375 / 4294967296 : ℚ) = (10485761 / 33554432 : ℚ) := by
  rw [fl_eq_pos (1342177375 / 4294967296 : ℚ) (-2) 10485761 (by norm_num) (by norm_num [pow2_eq_zpow])
    (by norm_num [pow2_eq_zpow]) (by decide)
    (by rw [abs_lt]; constructor <;> norm_num [pow2_eq_zpow])]
  norm_num [pow2_eq_zpow]

theorem flv6n : fl (-(1342177375 / 4294967296 : ℚ)) = -((10485761 / 33554432 : ℚ)) := by
  rw [show (-(1342177375 / 4294967296 : ℚ)) = -((1342177375 / 4294967296 : ℚ)) from by norm_num, fl_neg, flv5]

theorem flv7 : fl (157286399 / 33554432 : ℚ) = (75 / 16 : ℚ) := by
  rw [fl_eq_pos (157286399 / 33554432 : ℚ) 2 9830400 (by norm_num) (by norm_num [pow2_eq_zpow])
    (by norm_num [pow2_eq_zpow]) (by decide)
    (by rw [abs_lt]; constructor <;> norm_num [pow2_eq_zpow])]
  norm_num [pow2_eq_zpow]

theorem flv8 : fl (75 / 16 : ℚ) = (75 / 16 : ℚ) := by
  rw [fl_eq_pos (75 / 16 : ℚ) 2 9830400 (by norm_num) (by norm_num [pow2_eq_zpow])
    (by norm_num [pow2_eq_zpow]) (by decide)
    (by rw [abs_lt]; constructor <;> norm_num [pow2_eq_zpow])]
  norm_num [pow2_eq_zpow]

theorem flv9 : fl (1 : ℚ) = (1 : ℚ) := by
  rw [fl_eq_pos (1 : ℚ) 0 8388608 (by norm_num) (by norm_num [pow2_eq_zpow])
    (by norm_num [pow2_eq_zpow]) (by decide)
    (by rw [abs_lt]; constructor <;> norm_num [pow2_eq_zpow])]
  norm_num [pow2_eq_zpow]

theorem flv10 : fl (1 / 4 : ℚ) = (1 / 4 : ℚ) := by
  rw [fl_eq_pos (1 / 4 : ℚ) (-2) 8388608 (by norm_num) (by norm_num [pow2_eq_zpow])
    (by norm_num [pow2_eq_zpow]) (by decide)
    (by rw [abs_lt]; constructor <;> norm_num [pow2_eq_zpow])]
  norm_num [pow2_eq_zpow]

theorem flv11 : fl (3355443 / 67108864 : ℚ) = (3355443 / 67108864 : ℚ) := by
  rw [fl_eq_pos (3355443 / 67108864 : ℚ) (-5) 13421772 (by norm_num) (by norm_num [pow2_eq_zpow])
    (by norm_num [pow2_eq_zpow]) (by decide)
    (by rw [abs_lt]; constructor <;> norm_num [pow2_eq_zpow])]
  norm_num [pow2_eq_zpow]

theorem flv12 : fl (11258997726249 / 4503599627370496 : ℚ) = (10737417 / 4294967296 : ℚ) := by
  rw [fl_eq_pos (11258997726249 / 4503599627370496 : ℚ) (-9) 10737417 (by norm_num) (by norm_num [pow2_eq_zpow])
    (by norm_num [pow2_eq_zpow]) (by decide)
    (by rw [abs_lt]; constructor <;> norm_num [pow2_eq_zpow])]
  norm_num [pow2_eq_zpow]

theorem flv13 : fl (1342177125 / 68719476736 : ℚ) = (10485759 / 536870912 : ℚ) := by
  rw [fl_eq_pos (1342177125 / 68719476736 : ℚ) (-6) 10485759 (by norm_num) (by norm_num [pow2_eq_zpow])
    (by norm_num [pow2_eq_zpow]) (by decide)
    (by rw [abs_lt]; constructor <;> norm_num [pow2_eq_zpow])]
  norm_num [pow2_eq_zpow]

theorem flv14n : fl (-(1342177125 / 68719476736 : ℚ)) = -((10485759 / 536870912 : ℚ)) := by
  rw [show (-(1342177125 / 68719476736 : ℚ)) = -((1342177125 / 68719476736 : ℚ)) from by norm_num, fl_neg, flv13]

theorem flv15 : fl (2673868801 / 536870912 : ℚ) = (1275 / 256 : ℚ) := by
  rw [fl_eq_pos (2673868801 / 536870912 : ℚ) 2 10444800 (by norm_num) (by norm_num [pow2_eq_zpow])
    (by norm_num [pow2_eq_zpow]) (by decide)
    (by rw [abs_lt]; constructor <;> norm_num [pow2_eq_zpow])]
  norm_num [pow2_eq_zpow]

theorem flv16 : fl (1275 / 256 : ℚ) = (1275 / 256 : ℚ) := by
  rw [fl_eq_pos (1275 / 256 : ℚ) 2 10444800 (by norm_num) (by norm_num [pow2_eq_zpow])
    (by norm_num [pow2_eq_zpow]) (by decide)
    (by rw [abs_lt]; constructor <;> norm_num [pow2_eq_zpow])]
  norm_num [pow2_eq_zpow]

theorem flv17 : fl (2 : ℚ) = (2 : ℚ) := by
  rw [fl_eq_pos (2 : ℚ) 1 8388608 (by norm_num) (by norm_num [pow2_eq_zpow])
    (by norm_num [pow2_eq_zpow]) (by decide)
    (by rw [abs_lt]; constructor <;> norm_num [pow2_eq_zpow])]
  norm_num [pow2_eq_zpow]

theorem flv18 : fl (1 / 2 : ℚ) = (1 / 2 : ℚ) := by
  rw [fl_eq_pos (1 / 2 : ℚ) (-1) 8388608 (by norm_num) (by norm_num [pow2_eq_zpow])
    (by norm_num [pow2_eq_zpow]) (by decide)
    (by rw [abs_lt]; constructor <;> norm_num [pow2_eq_zpow])]
  norm_num [pow2_eq_zpow]

theorem flv19 : fl (20132659 / 67108864 : ℚ) = (5033165 / 16777216 : ℚ) := by
  rw [fl_eq_pos_tie_odd (20132659 / 67108864 : ℚ) (-2) 10066329 (by norm_num) (by norm_num [pow2_eq_zpow])
    (by norm_num [pow2_eq_zpow]) (by decide)
    (by norm_num [pow2_eq_zpow]) (by decide)]
  norm_num [pow2_eq_zpow]

theorem flv20 : fl (25332749917225 / 281474976710656 : ℚ) = (3019899 / 33554432 : ℚ) := by
  rw [fl_eq_pos (25332749917225 / 281474976710656 : ℚ) (-4) 12079596 (by norm_num) (by norm_num [pow2_eq_zpow])
    (by norm_num [pow2_eq_zpow]) (by decide)
    (by rw [abs_lt]; constructor <;> norm_num [pow2_eq_zpow])]
  norm_num [pow2_eq_zpow]

theorem flv21 : fl (377487375 / 536870912 : ℚ) = (45 / 64 : ℚ) := by
  rw [fl_eq_pos (377487375 / 536870912 : ℚ) (-1) 11796480 (by norm_num) (by norm_num [pow2_eq_zpow])
    (by norm_num [pow2_eq_zpow]) (by decide)
    (by rw [abs_lt]; constructor <;> norm_num [pow2_eq_zpow])]
  norm_num [pow2_eq_zpow]

theorem flv22n : fl (-(377487375 / 536870912 : ℚ)) = -((45 / 64 : ℚ)) := by
  rw [show (-(377487375 / 536870912 : ℚ)) = -((377487375 / 536870912 : ℚ)) from by norm_num, fl_neg, flv21]

theorem flv23 : fl (275 / 64 : ℚ) = (275 / 64 : ℚ) := by
  rw [fl_eq_pos (275 / 64 : ℚ) 2 9011200 (by norm_num) (by norm_num [pow2_eq_zpow])
    (by norm_num [pow2_eq_zpow]) (by decide)
    (by rw [abs_lt]; constructor <;> norm_num [pow2_eq_zpow])]
  norm_num [pow2_eq_zpow]

theorem flv24 : fl (3 : ℚ) = (3 : ℚ) := by
  rw [fl_eq_pos (3 : ℚ) 1 12582912 (by norm_num) (by norm_num [pow2_eq_zpow])
    (by norm_num [pow2_eq_zpow]) (by decide)
    (by rw [abs_lt]; constructor <;> norm_num [pow2_eq_zpow])]
  norm_num [pow2_eq_zpow]

theorem flv25 : fl (3 / 4 : ℚ) = (3 / 4 : ℚ) := by
  rw [fl_eq_pos (3 / 4 : ℚ) (-1) 12582912 (by norm_num) (by norm_num [pow2_eq_zpow])
    (by norm_num [pow2_eq_zpow]) (by decide)
    (by rw [abs_lt]; constructor <;> norm_num [pow2_eq_zpow])]
  norm_num [pow2_eq_zpow]

theorem flv26 : fl (36909875 / 67108864 : ℚ) = (9227469 / 16777216 : ℚ) := by
  rw [fl_eq_pos (36909875 / 67108864 : ℚ) (-1) 9227469 (by norm_num) (by norm_num [pow2_eq_zpow])
    (by norm_num [pow2_eq_zpow]) (by decide)
    (by rw [abs_lt]; constructor <;> norm_num [pow2_eq_zpow])]
  norm_num [pow2_eq_zpow]

theorem flv27 : fl (85146184145961 / 281474976710656 : ℚ) = (1268777 / 4194304 : ℚ) := by
  rw [fl_eq_pos (85146184145961 / 281474976710656 : ℚ) (-2) 10150216 (by norm_num) (by norm_num [pow2_eq_zpow])
    (by norm_num [pow2_eq_zpow]) (by decide)
    (by rw [abs_lt]; constructor <;> norm_num [pow2_eq_zpow])]
  norm_num [pow2_eq_zpow]

theorem flv28 : fl (158597125 / 67108864 : ℚ) = (605 / 256 : ℚ) := by
  rw [fl_eq_pos (158597125 / 67108864 : ℚ) 1 9912320 (by norm_num) (by norm_num [pow2_eq_zpow])
    (by norm_num [pow2_eq_zpow]) (by decide)
    (by rw [abs_lt]; constructor <;> norm_num [pow2_eq_zpow])]
  norm_num [pow2_eq_zpow]

theorem flv29n : fl (-(158597125 / 67108864 : ℚ)) = -((605 / 256 : ℚ)) := by
  rw [show (-(158597125 / 67108864 : ℚ)) = -((158597125 / 67108864 : ℚ)) from by norm_num, fl_neg, flv28]

theorem flv30 : fl (675 / 256 : ℚ) = (675 / 256 : ℚ) := by
  rw [fl_eq_pos (675 / 256 : ℚ) 1 11059200 (by norm_num) (by norm_num [pow2_eq_zpow])
    (by norm_num [pow2_eq_zpow]) (by decide)
    (by rw [abs_lt]; constructor <;> norm_num [pow2_eq_zpow])]
  norm_num [pow2_eq_zpow]

theorem flv31 : fl (53687091 / 67108864 : ℚ) = (13421773 / 16777216 : ℚ) := by
  rw [fl_eq_pos (53687091 / 67108864 : ℚ) (-1) 13421773 (by norm_num) (by norm_num [pow2_eq_zpow])
    (by norm_num [pow2_eq_zpow]) (by decide)
    (by rw [abs_lt]; constructor <;> norm_num [pow2_eq_zpow])]
  norm_num [pow2_eq_zpow]

theorem flv32 : fl (180143990463529 / 281474976710656 : ℚ) = (10737419 / 16777216 : ℚ) := by
  rw [fl_eq_pos (180143990463529 / 281474976710656 : ℚ) (-1) 10737419 (by norm_num) (by norm_num [pow2_eq_zpow])
    (by norm_num [pow2_eq_zpow]) (by decide)
    (by rw [abs_lt]; constructor <;> norm_num [pow2_eq_zpow])]
  norm_num [pow2_eq_zpow]

theorem flv33 : fl (1342177375 / 268435456 : ℚ) = (10485761 / 2097152 : ℚ) := by
  rw [fl_eq_pos (1342177375 / 268435456 : ℚ) 2 10485761 (by norm_num) (by norm_num [pow2_eq_zpow])
    (by norm_num [pow2_eq_zpow]) (by decide)
    (by rw [abs_lt]; constructor <;> norm_num [pow2_eq_zpow])]
  norm_num [pow2_eq_zpow]

theorem flv34n : fl (-(1342177375 / 268435456 : ℚ)) = -((10485761 / 2097152 : ℚ)) := by
  rw [show (-(1342177375 / 268435456 : ℚ)) = -((1342177375 / 268435456 : ℚ)) from by norm_num, fl_neg, flv33]

theorem flv35 : fl (1 / 2097152 : ℚ) = (1 / 2097152 : ℚ) := by
  rw [fl_eq_pos (1 / 2097152 : ℚ) (-21) 8388608 (by norm_num) (by norm_num [pow2_eq_zpow])
    (by norm_num [pow2_eq_zpow]) (by decide)
    (by rw [abs_lt]; constructor <;> norm_num [pow2_eq_zpow])]
  norm_num [pow2_eq_zpow]

theorem flv36n : fl (-(1 / 2097152 : ℚ)) = -((1 / 2097152 : ℚ)) := by
  rw [show (-(1 / 2097152 : ℚ)) = -((1 / 2097152 : ℚ)) from by norm_num, fl_neg, flv35]

theorem flv37 : fl (200000 : ℚ) = (200000 : ℚ) := by
  rw [fl_eq_pos (200000 : ℚ) 17 12800000 (by norm_num) (by norm_num [pow2_eq_zpow])
    (by norm_num [pow2_eq_zpow]) (by decide)
    (by rw [abs_lt]; constructor <;> norm_num [pow2_eq_zpow])]
  norm_num [pow2_eq_zpow]

theorem flv38 : fl (1000000 : ℚ) = (1000000 : ℚ) := by
  rw [fl_eq_pos (1000000 : ℚ) 19 16000000 (by norm_num) (by norm_num [pow2_eq_zpow])
    (by norm_num [pow2_eq_zpow]) (by decide)
    (by rw [abs_lt]; constructor <;> norm_num [pow2_eq_zpow])]
  norm_num [pow2_eq_zpow]

theorem flv39 : fl (5 : ℚ) = (5 : ℚ) := by
  rw [fl_eq_pos (5 : ℚ) 2 10485760 (by norm_num) (by norm_num [pow2_eq_zpow])
    (by norm_num [pow2_eq_zpow]) (by decide)
    (by rw [abs_lt]; constructor <;> norm_num [pow2_eq_zpow])]
  norm_num [pow2_eq_zpow]

theorem flv40 : fl (200001 : ℚ) = (200001 : ℚ) := by
  rw [fl_eq_pos (200001 : ℚ) 17 12800064 (by norm_num) (by norm_num [pow2_eq_zpow])
    (by norm_num [pow2_eq_zpow]) (by decide)
    (by rw [abs_lt]; constructor <;> norm_num [pow2_eq_zpow])]
  norm_num [pow2_eq_zpow]

theorem flv41 : fl (200001 / 1000000 : ℚ) = (838865 / 4194304 : ℚ) := by
  rw [fl_eq_pos (200001 / 1000000 : ℚ) (-3) 13421840 (by norm_num) (by norm_num [pow2_eq_zpow])
    (by norm_num [pow2_eq_zpow]) (by decide)
    (by rw [abs_lt]; constructor <;> norm_num [pow2_eq_zpow])]
  norm_num [pow2_eq_zpow]

theorem flv42 : fl (67 / 67108864 : ℚ) = (67 / 67108864 : ℚ) := by
  rw [fl_eq_pos (67 / 67108864 : ℚ) (-20) 8781824 (by norm_num) (by norm_num [pow2_eq_zpow])
    (by norm_num [pow2_eq_zpow]) (by decide)
    (by rw [abs_lt]; constructor <;> norm_num [pow2_eq_zpow])]
  norm_num [pow2_eq_zpow]

theorem flv43 : fl (4489 / 4503599627370496 : ℚ) = (4489 / 4503599627370496 : ℚ) := by
  rw [fl_eq_pos (4489 / 4503599627370496 : ℚ) (-40) 9193472 (by norm_num) (by norm_num [pow2_eq_zpow])
    (by norm_num [pow2_eq_zpow]) (by decide)
    (by rw [abs_lt]; constructor <;> norm_num [pow2_eq_zpow])]
  norm_num [pow2_eq_zpow]

theorem flv44 : fl (561125 / 72057594037927936 : ℚ) = (561125 / 72057594037927936 : ℚ) := by
  rw [fl_eq_pos (561125 / 72057594037927936 : ℚ) (-37) 8978000 (by norm_num) (by norm_num [pow2_eq_zpow])
    (by norm_num [pow2_eq_zpow]) (by decide)
    (by rw [abs_lt]; constructor <;> norm_num [pow2_eq_zpow])]
  norm_num [pow2_eq_zpow]

theorem flv45n : fl (-(561125 / 72057594037927936 : ℚ)) = -((561125 / 72057594037927936 : ℚ)) := by
  rw [show (-(561125 / 72057594037927936 : ℚ)) = -((561125 / 72057594037927936 : ℚ)) from by norm_num, fl_neg, flv44]

theorem flv46 : fl (360287970189078555 / 72057594037927936 : ℚ) = (5 : ℚ) := by
  rw [fl_eq_pos (360287970189078555 / 72057594037927936 : ℚ) 2 10485760 (by norm_num) (by norm_num [pow2_eq_zpow])
    (by norm_num [pow2_eq_zpow]) (by decide)
    (by rw [abs_lt]; constructor <;> norm_num [pow2_eq_zpow])]
  norm_num [pow2_eq_zpow]
theorem calRoomScore_0_4_0 : calRoomScore 0 4 0 = 75 / 16 := by
  simp only [calRoomScore]
  norm_num [flv0, flv1, flv3n, flv4, flv6n, flv7, flv8, fl_zero]

theorem calRoomScore_1_4_0 : calRoomScore 1 4 0 = 1275 / 256 := by
  simp only [calRoomScore]
  norm_num [flv9, flv0, flv10, flv1, flv11, flv12, flv14n, flv15, flv16, fl_zero]

theorem calRoomScore_2_4_0 : calRoomScore 2 4 0 = 275 / 64 := by
  simp only [calRoomScore]
  norm_num [flv17, flv0, flv18, flv1, flv19, flv20, flv22n, flv23, fl_zero]

theorem calRoomScore_3_4_0 : calRoomScore 3 4 0 = 675 / 256 := by
  simp only [calRoomScore]
  norm_num [flv24, flv0, flv25, flv1, flv26, flv27, flv29n, flv30, fl_zero]

theorem calRoomScore_4_4_0 : calRoomScore 4 4 0 = -(1 / 2097152) := by
  simp only [calRoomScore]
  norm_num [flv0, flv9, flv1, flv31, flv32, flv34n, flv36n, fl_zero]

theorem calRoomScore_200000_1000000_0 : calRoomScore 200000 1000000 0 = 5 := by
  simp only [calRoomScore]
  norm_num [flv37, flv38, flv1, flv39, fl_zero]

theorem calRoomScore_200001_1000000_0 : calRoomScore 200001 1000000 0 = 5 := by
  simp only [calRoomScore]
  norm_num [flv40, flv38, flv41, flv1, flv42, flv43, flv45n, flv46, flv39, fl_zero]

/-- Insertion into a Go map `map[int]*Player`, modelled on an association
list: if the key is present its binding is replaced in place, otherwise the
binding is appended.  Keys stay distinct when they were distinct. -/
def replaceKey : List (ℤ × Player) → ℤ → Player → List (ℤ × Player)
  | [], _, _ => []
  | (k0, v0) :: t, k, v => if k0 = k then (k, v) :: t else (k0, v0) :: replaceKey t k v

def mapInsert (l : List (ℤ × Player)) (k : ℤ) (v : Player) : List (ℤ × Player) :=
  if k ∈ l.map Prod.fst then replaceKey l k v else l ++ [(k, v)]

/-- Room.updateScore of src/main.go: Score := calRoomScore(len(Players),
Capacity, State). -/
def Room.updateScore (r : Room) : Room :=
  { r with Score := calRoomScore (r.Players.length : ℤ) r.Capacity r.State }

/-- Room.addPlayerIfPossible of src/main.go: inserts the player keyed by its
ID (no feasibility check, per the TODO in the source), recomputes the score,
and returns true unconditionally. -/
def Room.addPlayerIfPossible (r : Room) (p : Player) : Room × Bool :=
  (({ r with Players := mapInsert r.Players p.ID p }).updateScore, true)

/-- A room as stored at a heap slot: Index set to that slot. -/
def withIndex (r : Room) (i : ℤ) : Room := { r with Index := i }

/-- Score of the room at backing-array position i (default room for an
out-of-range read; all reads below stay in range). -/
def scoreAt (l : List Room) (i : ℕ) : ℚ := (l.getD i default).Score

/-- RoomHeap.Swap of src/main.go: exchanges slots i and j and updates both
stored Index fields to the new positions. -/
def swapIdx (l : List Room) (i j : ℕ) : List Room :=
  let a := l.getD i default
  let b := l.getD j default
  (l.set i (withIndex b (i : ℤ))).set j (withIndex a (j : ℤ))

/-- The down loop of container/heap (sift-down within bound n), with
RoomHeap.Less i j = Score i > Score j plugged in; returns the slice and the
final cursor.  The fuel is consumed once per iteration; down's cursor
strictly increases, so fuel = n never runs out. -/
def downAux : ℕ → List Room → ℕ → ℕ → List Room × ℕ
  | 0, l, i, _ => (l, i)
  | fuel + 1, l, i, n =>
    if 2 * i + 1 < n then
      let j := if 2 * i + 2 < n ∧ scoreAt l (2 * i + 1) < scoreAt l (2 * i + 2)
        then 2 * i + 2 else 2 * i + 1
      if scoreAt l i < scoreAt l j then downAux fuel (swapIdx l i j) j n
      else (l, i)
    else (l, i)

def downGo (l : List Room) (i n : ℕ) : List Room × ℕ := downAux n l i n

/-- The up loop of container/heap (sift-up), with Less plugged in.  Go's
parent computation (j-1)/2 at j = 0 gives 0 (break via i == j), matching
ℕ subtraction here. -/
def upAux : ℕ → List Room → ℕ → List Room
  | 0, l, _ => l
  | fuel + 1, l, j =>
    if j = 0 then l
    else
      let i := (j - 1) / 2
      if scoreAt l i < scoreAt l j then upAux fuel (swapIdx l i j) i else l

def upGo (l : List Room) (j : ℕ) : List Room := upAux (j + 1) l j

/-- The failure kinds of a pop through heap.Pop: the two explicit panics of
RoomHeap.Pop, plus the runtime index-out-of-range fault that heap.Pop's
Swap(0, -1) raises on an empty heap before RoomHeap.Pop is ever entered. -/
inductive PopErr where
  | emptyHeap : PopErr
  | noAllocatableRoom : PopErr
  | indexOutOfRange : PopErr
deriving DecidableEq

/-- RoomHeap.Push of src/main.go (the heap.Interface method): writes the
current length into the pushed room's Index through the caller's pointer,
then appends a copy of it.  Returns the new slice together with the room as
the caller's pointer now sees it. -/
def RoomHeap.pushMethod (l : List Room) (item : Room) : List Room × Room :=
  (l ++ [withIndex item (l.length : ℤ)], withIndex item (l.length : ℤ))

/-- RoomHeap.Pop of src/main.go (the heap.Interface method): panics on an
empty slice (EmptyQueue), then inspects the LAST element (which heap.Pop
has just swapped the old root into); panics with NoAllocatableRoom when its
score is ≤ 0, leaving the slice unshrunk; otherwise marks the element
checked out (Index = -1) and removes it. -/
def RoomHeap.popMethod (l : List Room) : List Room × Except PopErr Room :=
  if l.length = 0 then (l, .error .emptyHeap)
  else
    let item := l.getD (l.length - 1) default
    if item.Score ≤ 0 then (l, .error .noAllocatableRoom)
    else (l.dropLast, .ok (withIndex item (-1)))

/-- heap.Pop of container/heap applied to a RoomHeap:
n := Len()-1; Swap(0, n); down(0, n); return RoomHeap.Pop().  On an empty
heap, Swap(0, -1) raises the runtime index-out-of-range fault before any
room is touched; the slice is left unchanged. -/
def heapPopGo (l : List Room) : List Room × Except PopErr Room :=
  if l.length = 0 then (l, .error .indexOutOfRange)
  else
    let l1 := swapIdx l 0 (l.length - 1)
    let l2 := (downGo l1 0 (l.length - 1)).1
    RoomHeap.popMethod l2

/-- heap.Push of container/heap: interface Push, then up(Len()-1).  The
second component is the room as the caller's pointer sees it after the
call: Index = old length, NOT updated by the sift-up (which only moves
slice copies). -/
def heapPushGo (l : List Room) (item : Room) : List Room × Room :=
  let p := RoomHeap.pushMethod l item
  (upGo p.1 (p.1.length - 1), p.2)

/-- heap.Fix of container/heap: if !down(i, Len()) then up(i). -/
def heapFixGo (l : List Room) (i : ℕ) : List Room :=
  let d := downGo l i l.length
  if i < d.2 then d.1 else upGo d.1 i

/-- RoomHeap.update of src/main.go: ignores its Score parameter entirely and
calls heap.Fix(pq, pItem.Index).  With Index = -1, Go's loop arithmetic
makes Fix a no-op (down breaks on j1 < 0, up breaks on i == j); other
negative indices never occur in the program, and are modelled as the same
no-op. -/
def RoomHeap.update (l : List Room) (pItem : Room) (Score : ℚ) : List Room :=
  if pItem.Index < 0 then l else heapFixGo l pItem.Index.toNat

/-- heap.Init of container/heap: down(i, n) for i = n/2 - 1 down to 0. -/
def heapInitGo (l : List Room) : List Room :=
  (List.range (l.length / 2)).reverse.foldl (fun acc i => (downGo acc i acc.length).1) l

/-- One allocation attempt: the body of the per-player goroutine of main
(serialized by RoomHeapMux): heap.Pop, addPlayerIfPossible, heap.Push,
update.  A panic of the pop is recovered after the deferred unlock: the
function returns with the queue exactly as the failed pop left it and no
push-back happens. -/
def allocate (l : List Room) (p : Player) : List Room × Except PopErr ℤ :=
  match heapPopGo l with
  | (l1, .error e) => (l1, .error e)
  | (l1, .ok room) =>
    let room1 := (room.addPlayerIfPossible p).1
    let pr := heapPushGo l1 room1
    (RoomHeap.update pr.1 pr.2 pr.2.Score, .ok room1.ID)

/-- The initial five rooms of main: capacity 4, IDLE (penalty 0), empty,
score computed from zero occupancy, Index = position. -/
def mainInitRooms : List Room :=
  (List.range 5).map fun i =>
    { ID := (i : ℤ), Capacity := 4, Players := [], Score := calRoomScore 0 4 0,
      State := 0, Index := (i : ℤ) }

/-- The queue as built by main: heap.Init over the initial rooms. -/
def pq0 : List Room := heapInitGo mainInitRooms

/-- The queue operations of the spec, acting on (resident queue, checked-out
rooms): popTop; pushBack of checked-out room k, optionally admitting one
player first and then running main's update call (Fix at the pushed room's
slot); fix at an in-range resident slot. -/
inductive QOp where
  | pop : QOp
  | push : ℕ → Option Player → QOp
  | fix : ℕ → QOp

structure QState where
  q : List Room
  out : List Room

def stepOp (st : QState) : QOp → QState
  | .pop =>
    match heapPopGo st.q with
    | (q1, .ok r) => ⟨q1, st.out ++ [r]⟩
    | (q1, .error _) => ⟨q1, st.out⟩
  | .push k p =>
    if k < st.out.length then
      let r := st.out.getD k default
      let r1 := match p with
        | some pl => (r.addPlayerIfPossible pl).1
        | none => r
      let pr := heapPushGo st.q r1
      ⟨RoomHeap.update pr.1 pr.2 pr.2.Score, st.out.eraseIdx k⟩
    else st
  | .fix k => if k < st.q.length then ⟨heapFixGo st.q k, st.out⟩ else st

/-- Run a sequence of queue operations from the initialized queue. -/
def execOps (ops : List QOp) : QState := ops.foldl stepOp ⟨pq0, []⟩

def roomAt (l : List Room) (i : ℕ) : Room := l.getD i default

theorem scoreAt_def (l : List Room) (i : ℕ) : scoreAt l i = (roomAt l i).Score := rfl

theorem roomAt_eq_getElem (l : List Room) (i : ℕ) (h : i < l.length) :
    roomAt l i = l.get ⟨i, h⟩ := by
  unfold roomAt
  rw [List.getD_eq_getElem?_getD, List.getElem?_eq_getElem h]
  rfl

theorem roomAt_mem (l : List Room) (i : ℕ) (h : i < l.length) : roomAt l i ∈ l := by
  rw [roomAt_eq_getElem l i h]
  exact List.get_mem l i h

theorem withIndex_Score (r : Room) (k : ℤ) : (withIndex r k).Score = r.Score := rfl

theorem withIndex_Index (r : Room) (k : ℤ) : (withIndex r k).Index = k := rfl

theorem length_swapIdx (l : List Room) (i j : ℕ) : (swapIdx l i j).length = l.length := by
  unfold swapIdx
  rw [List.length_set, List.length_set]

theorem roomAt_swapIdx_left (l : List Room) (i j : ℕ) (hi : i < l.length) (hj : j < l.length) :
    roomAt (swapIdx l i j) i = withIndex (roomAt l j) (i : ℤ) := by
  unfold swapIdx roomAt
  by_cases hij : i = j
  · subst hij
    rw [List.getD_eq_getElem?_getD, List.getElem?_set_self (by rw [List.length_set]; exact hi)]
    rfl
  · rw [List.getD_eq_getElem?_getD, List.getElem?_set_ne (fun h => hij h.symm),
      List.getElem?_set_self hi]
    rfl

theorem roomAt_swapIdx_right (l : List Room) (i j : ℕ) (hi : i < l.length) (hj : j < l.length) :
    roomAt (swapIdx l i j) j = withIndex (roomAt l i) (j : ℤ) := by
  unfold swapIdx roomAt
  rw [List.getD_eq_getElem?_getD, List.getElem?_set_self (by rw [List.length_set]; exact hj)]
  rfl

theorem roomAt_swapIdx_other (l : List Room) (i j k : ℕ) (hki : k ≠ i) (hkj : k ≠ j) :
    roomAt (swapIdx l i j) k = roomAt l k := by
  unfold swapIdx roomAt
  rw [List.getD_eq_getElem?_getD, List.getElem?_set_ne (fun h => hkj h.symm),
    List.getElem?_set_ne (fun h => hki h.symm), List.getD_eq_getElem?_getD]

theorem scoreAt_swapIdx_left (l : List Room) (i j : ℕ) (hi : i < l.length) (hj : j < l.length) :
    scoreAt (swapIdx l i j) i = scoreAt l j := by
  rw [scoreAt_def, roomAt_swapIdx_left l i j hi hj, withIndex_Score, scoreAt_def]

theorem scoreAt_swapIdx_right (l : List Room) (i j : ℕ) (hi : i < l.length) (hj : j < l.length) :
    scoreAt (swapIdx l i j) j = scoreAt l i := by
  rw [scoreAt_def, roomAt_swapIdx_right l i j hi hj, withIndex_Score, scoreAt_def]

theorem scoreAt_swapIdx_other (l : List Room) (i j k : ℕ) (hki : k ≠ i) (hkj : k ≠ j) :
    scoreAt (swapIdx l i j) k = scoreAt l k := by
  rw [scoreAt_def, roomAt_swapIdx_other l i j k hki hkj, scoreAt_def]

/-- Index consistency for the resident part of the queue: every slot's room
stores its own position. -/
def idxOk (l : List Room) : Prop := ∀ i, i < l.length → (roomAt l i).Index = (i : ℤ)

theorem idxOk_swapIdx (l : List Room) (i j : ℕ) (hi : i < l.length) (hj : j < l.length)
    (h : idxOk l) : idxOk (swapIdx l i j) := by
  intro k hk
  rw [length_swapIdx] at hk
  by_cases hkj : k = j
  · rw [hkj, roomAt_swapIdx_right l i j hi hj, withIndex_Index]
  · by_cases hki : k = i
    · rw [hki, roomAt_swapIdx_left l i j hi hj, withIndex_Index]
    · rw [roomAt_swapIdx_other l i j k hki hkj]
      exact h k hk

theorem downAux_length (fuel : ℕ) :
    ∀ (l : List Room) (i n : ℕ), ((downAux fuel l i n).1).length = l.length := by
  induction fuel with
  | zero => intro l i n; rfl
  | succ fuel ih =>
    intro l i n
    simp only [downAux]
    by_cases h1 : 2 * i + 1 < n
    · rw [if_pos h1]
      by_cases h2 : scoreAt l i < scoreAt l (if 2 * i + 2 < n ∧ scoreAt l (2 * i + 1) < scoreAt l (2 * i + 2) then 2 * i + 2 else 2 * i + 1)
      · rw [if_pos h2, ih, length_swapIdx]
      · rw [if_neg h2]
    · rw [if_neg h1]

theorem upAux_length (fuel : ℕ) :
    ∀ (l : List Room) (j : ℕ), (upAux fuel l j).length = l.length := by
  induction fuel with
  | zero => intro l j; rfl
  | succ fuel ih =>
    intro l j
    simp only [upAux]
    by_cases h0 : j = 0
    · rw [if_pos h0]
    · rw [if_neg h0]
      by_cases h2 : scoreAt l ((j - 1) / 2) < scoreAt l j
      · rw [if_pos h2, ih, length_swapIdx]
      · rw [if_neg h2]

theorem idxOk_downAux (fuel : ℕ) :
    ∀ (l : List Room) (i n : ℕ), n ≤ l.length → idxOk l → idxOk (downAux fuel l i n).1 := by
  induction fuel with
  | zero => intro l i n _ h; exact h
  | succ fuel ih =>
    intro l i n hn h
    simp only [downAux]
    by_cases h1 : 2 * i + 1 < n
    · rw [if_pos h1]
      set j := if 2 * i + 2 < n ∧ scoreAt l (2 * i + 1) < scoreAt l (2 * i + 2)
        then 2 * i + 2 else 2 * i + 1 with hj
      have hjn : j < n := by
        rw [hj]; split
        · omega
        · exact h1
      by_cases h2 : scoreAt l i < scoreAt l j
      · rw [if_pos h2]
        exact ih _ j n (by rw [length_swapIdx]; exact hn)
          (idxOk_swapIdx l i j (by omega) (by omega) h)
      · rw [if_neg h2]; exact h
    · rw [if_neg h1]; exact h

theorem idxOk_upAux (fuel : ℕ) :
    ∀ (l : List Room) (j : ℕ), j < l.length → idxOk l → idxOk (upAux fuel l j) := by
  induction fuel with
  | zero => intro l j _ h; exact h
  | succ fuel ih =>
    intro l j hjl h
    simp only [upAux]
    by_cases h0 : j = 0
    · rw [if_pos h0]; exact h
    · rw [if_neg h0]
      by_cases h2 : scoreAt l ((j - 1) / 2) < scoreAt l j
      · rw [if_pos h2]
        exact ih _ ((j - 1) / 2) (by rw [length_swapIdx]; omega)
          (idxOk_swapIdx l ((j - 1) / 2) j (by omega) hjl h)
      · rw [if_neg h2]; exact h

theorem set_get_self {α : Type _} (L : List α) (i : ℕ) (hi : i < L.length) :
    L.set i (L.get ⟨i, hi⟩) = L := by
  apply List.ext_getElem?
  intro n
  by_cases h : n = i
  · rw [h, List.getElem?_set_self hi, List.getElem?_eq_getElem hi]
    rfl
  · rw [List.getElem?_set_ne (fun hc => h hc.symm)]

theorem cons_set_perm {α : Type _} (a : α) :
    ∀ (t : List α) (j : ℕ) (hj : j < t.length),
      (t.get ⟨j, hj⟩ :: t.set j a).Perm (a :: t) := by
  intro t
  induction t with
  | nil => intro j hj; simp at hj
  | cons b t2 ih =>
    intro j hj
    cases j with
    | zero =>
      simp only [List.get, List.set]
      exact List.Perm.swap a b t2
    | succ k =>
      simp only [List.get, List.set]
      have hk : k < t2.length := by simpa using hj
      exact ((List.Perm.swap b (t2.get ⟨k, hk⟩) (t2.set k a)).trans
        (List.Perm.cons b (ih k hk))).trans (List.Perm.swap a b t2)

theorem set_set_perm {α : Type _} :
    ∀ (L : List α) (i j : ℕ) (hi : i < L.length) (hj : j < L.length),
      ((L.set i (L.get ⟨j, hj⟩)).set j (L.get ⟨i, hi⟩)).Perm L := by
  intro L
  induction L with
  | nil => intro i j hi hj; simp at hi
  | cons a t ih =>
    intro i j hi hj
    cases i with
    | zero =>
      cases j with
      | zero =>
        simp only [List.get, List.set]
        exact List.Perm.refl _
      | succ k =>
        have hk : k < t.length := by simpa using hj
        simp only [List.get, List.set]
        exact cons_set_perm a t k hk
    | succ m =>
      have hm : m < t.length := by simpa using hi
      cases j with
      | zero =>
        simp only [List.get, List.set]
        exact cons_set_perm a t m hm
      | succ k =>
        have hk : k < t.length := by simpa using hj
        simp only [List.get, List.set]
        exact List.Perm.cons a (ih m k hm hk)

/-- A room with its bookkeeping Index forgotten: the queue operations
permute rooms and rewrite only this field. -/
def stripIdx (r : Room) : Room := withIndex r 0

theorem stripIdx_withIndex (r : Room) (k : ℤ) : stripIdx (withIndex r k) = stripIdx r := rfl

theorem stripIdx_Score (r : Room) : (stripIdx r).Score = r.Score := rfl

def mapStrip (l : List Room) : List Room := l.map stripIdx

theorem length_mapStrip (l : List Room) : (mapStrip l).length = l.length := by
  unfold mapStrip; rw [List.length_map]

theorem getElem?_mapStrip (l : List Room) (n : ℕ) :
    (mapStrip l)[n]? = Option.map stripIdx l[n]? := by
  unfold mapStrip; rw [List.getElem?_map]

theorem roomAt_getElem? (l : List Room) (k : ℕ) (hk : k < l.length) :
    l[k]? = some (roomAt l k) := by
  rw [List.getElem?_eq_getElem hk, roomAt_eq_getElem l k hk]
  rfl

theorem getElem?_swapIdx_other (l : List Room) (i j n : ℕ) (hni : n ≠ i) (hnj : n ≠ j) :
    (swapIdx l i j)[n]? = l[n]? := by
  unfold swapIdx
  rw [List.getElem?_set_ne (fun h => hnj h.symm), List.getElem?_set_ne (fun h => hni h.symm)]

theorem mapStrip_roomAt (l : List Room) (j : ℕ) (hj : j < l.length) :
    roomAt (mapStrip l) j = stripIdx (roomAt l j) := by
  unfold roomAt
  rw [List.getD_eq_getElem?_getD, List.getD_eq_getElem?_getD, getElem?_mapStrip,
    List.getElem?_eq_getElem hj]
  rfl

theorem mapStrip_swapIdx (l : List Room) (i j : ℕ) (hi : i < l.length) (hj : j < l.length) :
    (mapStrip (swapIdx l i j)).Perm (mapStrip l) := by
  have hi2 : i < (mapStrip l).length := by rw [length_mapStrip]; exact hi
  have hj2 : j < (mapStrip l).length := by rw [length_mapStrip]; exact hj
  have hlen : i < (swapIdx l i j).length := by rw [length_swapIdx]; exact hi
  have hlen2 : j < (swapIdx l i j).length := by rw [length_swapIdx]; exact hj
  have h1 : mapStrip (swapIdx l i j)
      = ((mapStrip l).set i ((mapStrip l).get ⟨j, hj2⟩)).set j ((mapStrip l).get ⟨i, hi2⟩) := by
    apply List.ext_getElem?
    intro n
    by_cases hnj : n = j
    · rw [hnj]
      rw [getElem?_mapStrip, roomAt_getElem? _ j hlen2, roomAt_swapIdx_right l i j hi hj]
      rw [List.getElem?_set_self (by rw [List.length_set]; exact hj2)]
      rw [← roomAt_eq_getElem (mapStrip l) i hi2, mapStrip_roomAt l i hi]
      rfl
    · by_cases hni : n = i
      · rw [hni]
        rw [getElem?_mapStrip, roomAt_getElem? _ i hlen, roomAt_swapIdx_left l i j hi hj]
        rw [List.getElem?_set_ne (fun h => hnj (hni ▸ h.symm))]
        rw [List.getElem?_set_self hi2]
        rw [← roomAt_eq_getElem (mapStrip l) j hj2, mapStrip_roomAt l j hj]
        rfl
      · rw [getElem?_mapStrip, getElem?_swapIdx_other l i j n hni hnj,
          List.getElem?_set_ne (fun h => hnj h.symm), List.getElem?_set_ne (fun h => hni h.symm),
          getElem?_mapStrip]
  rw [h1]
  exact set_set_perm (mapStrip l) i j hi2 hj2

theorem mapStrip_downAux (fuel : ℕ) :
    ∀ (l : List Room) (i n : ℕ), n ≤ l.length →
      (mapStrip (downAux fuel l i n).1).Perm (mapStrip l) := by
  induction fuel with
  | zero => intro l i n _; exact List.Perm.refl _
  | succ fuel ih =>
    intro l i n hn
    simp only [downAux]
    by_cases h1 : 2 * i + 1 < n
    · rw [if_pos h1]
      set j := if 2 * i + 2 < n ∧ scoreAt l (2 * i + 1) < scoreAt l (2 * i + 2)
        then 2 * i + 2 else 2 * i + 1 with hj
      have hjn : j < n := by
        rw [hj]; split
        · omega
        · exact h1
      by_cases h2 : scoreAt l i < scoreAt l j
      · rw [if_pos h2]
        have hil : i < l.length := by omega
        have hjl : j < l.length := by omega
        have hn2 : n ≤ (swapIdx l i j).length := by rw [length_swapIdx]; exact hn
        have hd := ih (swapIdx l i j) j n hn2
        exact hd.trans (mapStrip_swapIdx l i j hil hjl)
      · rw [if_neg h2]
    · rw [if_neg h1]

theorem mapStrip_upAux (fuel : ℕ) :
    ∀ (l : List Room) (j : ℕ), j < l.length →
      (mapStrip (upAux fuel l j)).Perm (mapStrip l) := by
  induction fuel with
  | zero => intro l j _; exact List.Perm.refl _
  | succ fuel ih =>
    intro l j hjl
    simp only [upAux]
    by_cases h0 : j = 0
    · rw [if_pos h0]
    · rw [if_neg h0]
      by_cases h2 : scoreAt l ((j - 1) / 2) < scoreAt l j
      · rw [if_pos h2]
        have hpl : (j - 1) / 2 < l.length := by omega
        have hj2 : (j - 1) / 2 < (swapIdx l ((j - 1) / 2) j).length := by
          rw [length_swapIdx]; omega
        have hd := ih (swapIdx l ((j - 1) / 2) j) ((j - 1) / 2) hj2
        exact hd.trans (mapStrip_swapIdx l ((j - 1) / 2) j hpl hjl)
      · rw [if_neg h2]

theorem all_swapIdx (Q : Room → Prop) (hQ : ∀ r k, Q r → Q (withIndex r k))
    (l : List Room) (i j : ℕ) (hi : i < l.length) (hj : j < l.length)
    (h : ∀ r ∈ l, Q r) : ∀ r ∈ swapIdx l i j, Q r := by
  intro r hr
  unfold swapIdx at hr
  rcases List.mem_or_eq_of_mem_set hr with hr2 | hr2
  · rcases List.mem_or_eq_of_mem_set hr2 with hr3 | hr3
    · exact h r hr3
    · rw [hr3]
      exact hQ _ _ (h _ (roomAt_mem l j hj))
  · rw [hr2]
    exact hQ _ _ (h _ (roomAt_mem l i hi))

theorem all_downAux (Q : Room → Prop) (hQ : ∀ r k, Q r → Q (withIndex r k)) (fuel : ℕ) :
    ∀ (l : List Room) (i n : ℕ), n ≤ l.length → (∀ r ∈ l, Q r) →
      ∀ r ∈ (downAux fuel l i n).1, Q r := by
  induction fuel with
  | zero => intro l i n _ h; exact h
  | succ fuel ih =>
    intro l i n hn h
    simp only [downAux]
    by_cases h1 : 2 * i + 1 < n
    · rw [if_pos h1]
      set j := if 2 * i + 2 < n ∧ scoreAt l (2 * i + 1) < scoreAt l (2 * i + 2)
        then 2 * i + 2 else 2 * i + 1 with hj
      have hjn : j < n := by
        rw [hj]; split
        · omega
        · exact h1
      by_cases h2 : scoreAt l i < scoreAt l j
      · rw [if_pos h2]
        exact ih _ j n (by rw [length_swapIdx]; exact hn)
          (all_swapIdx Q hQ l i j (by omega) (by omega) h)
      · rw [if_neg h2]; exact h
    · rw [if_neg h1]; exact h

theorem all_upAux (Q : Room → Prop) (hQ : ∀ r k, Q r → Q (withIndex r k)) (fuel : ℕ) :
    ∀ (l : List Room) (j : ℕ), j < l.length → (∀ r ∈ l, Q r) →
      ∀ r ∈ upAux fuel l j, Q r := by
  induction fuel with
  | zero => intro l j _ h; exact h
  | succ fuel ih =>
    intro l j hjl h
    simp only [upAux]
    by_cases h0 : j = 0
    · rw [if_pos h0]; exact h
    · rw [if_neg h0]
      by_cases h2 : scoreAt l ((j - 1) / 2) < scoreAt l j
      · rw [if_pos h2]
        exact ih _ ((j - 1) / 2) (by rw [length_swapIdx]; omega)
          (all_swapIdx Q hQ l ((j - 1) / 2) j (by omega) hjl h)
      · rw [if_neg h2]; exact h

theorem downAux_roomAt_ge (fuel : ℕ) :
    ∀ (l : List Room) (i n k : ℕ), n ≤ k → roomAt (downAux fuel l i n).1 k = roomAt l k := by
  induction fuel with
  | zero => intro l i n k _; rfl
  | succ fuel ih =>
    intro l i n k hk
    simp only [downAux]
    by_cases h1 : 2 * i + 1 < n
    · rw [if_pos h1]
      set j := if 2 * i + 2 < n ∧ scoreAt l (2 * i + 1) < scoreAt l (2 * i + 2)
        then 2 * i + 2 else 2 * i + 1 with hj
      have hjn : j < n := by
        rw [hj]; split
        · omega
        · exact h1
      by_cases h2 : scoreAt l i < scoreAt l j
      · rw [if_pos h2, ih _ j n k hk]
        exact roomAt_swapIdx_other l i j k (by omega) (by omega)
      · rw [if_neg h2]
    · rw [if_neg h1]

/-- Binary max-heap order on the first n slots: every non-root slot's score
is at most its parent's. -/
def heapUpTo (l : List Room) (n : ℕ) : Prop :=
  ∀ c, 0 < c → c < n → scoreAt l c ≤ scoreAt l ((c - 1) / 2)

def heapInv (l : List Room) : Prop := heapUpTo l l.length

/-- Sift-down loop invariant: heap order except at the edges out of i, and
the children of i are bounded by i's parent (vacuous at the root). -/
def downInv (l : List Room) (n i : ℕ) : Prop :=
  (∀ c, 0 < c → c < n → (c - 1) / 2 ≠ i → scoreAt l c ≤ scoreAt l ((c - 1) / 2)) ∧
  (∀ c, 0 < c → c < n → (c - 1) / 2 = i → 0 < i → scoreAt l c ≤ scoreAt l ((i - 1) / 2))

theorem downAux_heap (fuel : ℕ) :
    ∀ (l : List Room) (i n : ℕ), n ≤ fuel + i → n ≤ l.length → downInv l n i →
      heapUpTo (downAux fuel l i n).1 n := by
  induction fuel with
  | zero =>
    intro l i n hfuel _ hd
    intro c hc hcn
    by_cases hpar : (c - 1) / 2 = i
    · omega
    · exact hd.1 c hc hcn hpar
  | succ fuel ih =>
    intro l i n hfuel hlen hd
    simp only [downAux]
    by_cases h1 : 2 * i + 1 < n
    · rw [if_pos h1]
      set j := if 2 * i + 2 < n ∧ scoreAt l (2 * i + 1) < scoreAt l (2 * i + 2)
        then 2 * i + 2 else 2 * i + 1 with hj
      have hj12 : j = 2 * i + 1 ∨ j = 2 * i + 2 := by
        rw [hj]; split
        · right; rfl
        · left; rfl
      have hjn : j < n := by
        by_cases hcond : 2 * i + 2 < n ∧ scoreAt l (2 * i + 1) < scoreAt l (2 * i + 2)
        · rw [hj, if_pos hcond]; exact hcond.1
        · rw [hj, if_neg hcond]; exact h1
      have hparj : (j - 1) / 2 = i := by omega
      have hij : i < j := by omega
      have hsel : ∀ c, 0 < c → c < n → (c - 1) / 2 = i → c ≠ j → scoreAt l c ≤ scoreAt l j := by
        intro c hc hcn hpar hcj
        have hc12 : c = 2 * i + 1 ∨ c = 2 * i + 2 := by omega
        by_cases hcond : 2 * i + 2 < n ∧ scoreAt l (2 * i + 1) < scoreAt l (2 * i + 2)
        · have hjv : j = 2 * i + 2 := by rw [hj, if_pos hcond]
          have hcv : c = 2 * i + 1 := by
            rcases hc12 with h | h
            · exact h
            · exact absurd (h.trans hjv.symm) hcj
          rw [hjv, hcv]
          exact le_of_lt hcond.2
        · have hjv : j = 2 * i + 1 := by rw [hj, if_neg hcond]
          have hcv : c = 2 * i + 2 := by
            rcases hc12 with h | h
            · exact absurd (h.trans hjv.symm) hcj
            · exact h
          rw [hjv, hcv]
          push_neg at hcond
          exact hcond (by omega)
      by_cases h2 : scoreAt l i < scoreAt l j
      · rw [if_pos h2]
        have hjl : j < l.length := by omega
        have hil : i < l.length := by omega
        have hs_i : scoreAt (swapIdx l i j) i = scoreAt l j := scoreAt_swapIdx_left l i j hil hjl
        have hs_j : scoreAt (swapIdx l i j) j = scoreAt l i := scoreAt_swapIdx_right l i j hil hjl
        apply ih (swapIdx l i j) j n (by omega) (by rw [length_swapIdx]; exact hlen)
        constructor
        · intro c hc hcn hpar
          by_cases hci : c = i
          · have hi0 : 0 < i := by omega
            have hpi_ne : (i - 1) / 2 ≠ i := by omega
            have hpi_ne2 : (i - 1) / 2 ≠ j := by omega
            rw [hci, hs_i, scoreAt_swapIdx_other l i j ((i - 1) / 2) hpi_ne hpi_ne2]
            exact hd.2 j (by omega) hjn hparj hi0
          · by_cases hcj : c = j
            · rw [hcj, hs_j, hparj, hs_i]
              exact le_of_lt h2
            · have hcni : c ≠ i := hci
              rw [scoreAt_swapIdx_other l i j c hci hcj]
              by_cases hpi : (c - 1) / 2 = i
              · rw [hpi, hs_i]
                exact hsel c hc hcn hpi hcj
              · have hpj : (c - 1) / 2 ≠ j := hpar
                rw [scoreAt_swapIdx_other l i j ((c - 1) / 2) hpi hpj]
                exact hd.1 c hc hcn hpi
        · intro c hc hcn hpar hj0
          have hcne_i : c ≠ i := by omega
          have hcne_j : c ≠ j := by omega
          rw [scoreAt_swapIdx_other l i j c hcne_i hcne_j, hparj, hs_i]
          have : (c - 1) / 2 ≠ i := by omega
          have h3 := hd.1 c hc hcn this
          rw [hpar] at h3
          exact h3
      · rw [if_neg h2]
        show heapUpTo l n
        intro c hc hcn
        by_cases hpar : (c - 1) / 2 = i
        · by_cases hcj : c = j
          · rw [hcj, hparj]
            exact not_lt.mp h2
          · rw [hpar]
            exact le_trans (hsel c hc hcn hpar hcj) (not_lt.mp h2)
        · exact hd.1 c hc hcn hpar
    · rw [if_neg h1]
      show heapUpTo l n
      intro c hc hcn
      by_cases hpar : (c - 1) / 2 = i
      · omega
      · exact hd.1 c hc hcn hpar

/-- Sift-up loop invariant: heap order except at the edge into j, and the
children of j are bounded by j's parent. -/
def upInv (l : List Room) (n j : ℕ) : Prop :=
  (∀ c, 0 < c → c < n → c ≠ j → scoreAt l c ≤ scoreAt l ((c - 1) / 2)) ∧
  (∀ c, 0 < c → c < n → (c - 1) / 2 = j → scoreAt l c ≤ scoreAt l ((j - 1) / 2))

theorem upAux_heap (fuel : ℕ) :
    ∀ (l : List Room) (j n : ℕ), j < fuel → j < n → n ≤ l.length → upInv l n j →
      heapUpTo (upAux fuel l j) n := by
  induction fuel with
  | zero => intro l j n hfuel _ _ _; omega
  | succ fuel ih =>
    intro l j n hfuel hjn hlen hu
    simp only [upAux]
    by_cases h0 : j = 0
    · rw [if_pos h0]
      intro c hc hcn
      exact hu.1 c hc hcn (by omega)
    · rw [if_neg h0]
      have hij : (j - 1) / 2 < j := by omega
      by_cases h2 : scoreAt l ((j - 1) / 2) < scoreAt l j
      · rw [if_pos h2]
        have hjl : j < l.length := by omega
        have hil : (j - 1) / 2 < l.length := by omega
        set i := (j - 1) / 2 with hidef
        have hs_i : scoreAt (swapIdx l i j) i = scoreAt l j := scoreAt_swapIdx_left l i j hil hjl
        have hs_j : scoreAt (swapIdx l i j) j = scoreAt l i := scoreAt_swapIdx_right l i j hil hjl
        apply ih (swapIdx l i j) i n (by omega) (by omega) (by rw [length_swapIdx]; exact hlen)
        constructor
        · intro c hc hcn hcne_i
          by_cases hcj : c = j
          · rw [hcj, hs_j, ← hidef, hs_i]
            exact le_of_lt h2
          · rw [scoreAt_swapIdx_other l i j c hcne_i hcj]
            by_cases hpi : (c - 1) / 2 = i
            · rw [hpi, hs_i]
              have h3 := hu.1 c hc hcn hcj
              rw [hpi] at h3
              calc scoreAt l c ≤ scoreAt l i := h3
                _ ≤ scoreAt l j := le_of_lt h2
            · by_cases hpj : (c - 1) / 2 = j
              · rw [hpj, hs_j]
                have h3 := hu.2 c hc hcn hpj
                rw [← hidef] at h3
                exact h3
              · rw [scoreAt_swapIdx_other l i j ((c - 1) / 2) hpi hpj]
                exact hu.1 c hc hcn hcj
        · intro c hc hcn hpc
          by_cases hi0 : i = 0
          · have hc_pos : (i - 1) / 2 = i := by omega
            rw [hc_pos, hs_i]
            by_cases hcj : c = j
            · rw [hcj, hs_j]
              exact le_of_lt h2
            · have hcne_i : c ≠ i := by omega
              rw [scoreAt_swapIdx_other l i j c hcne_i hcj]
              have h3 := hu.1 c hc hcn hcj
              rw [hpc] at h3
              calc scoreAt l c ≤ scoreAt l i := h3
                _ ≤ scoreAt l j := le_of_lt h2
          · have hpi_ne_i : (i - 1) / 2 ≠ i := by omega
            have hpi_ne_j : (i - 1) / 2 ≠ j := by omega
            rw [scoreAt_swapIdx_other l i j ((i - 1) / 2) hpi_ne_i hpi_ne_j]
            have hii := hu.1 i (by omega) (by omega) (by omega)
            by_cases hcj : c = j
            · rw [hcj, hs_j]
              exact hii
            · have hcne_i : c ≠ i := by omega
              rw [scoreAt_swapIdx_other l i j c hcne_i hcj]
              have h3 := hu.1 c hc hcn hcj
              rw [hpc] at h3
              exact le_trans h3 hii
      · rw [if_neg h2]
        intro c hc hcn
        by_cases hcj : c = j
        · rw [hcj]
          exact not_lt.mp h2
        · exact hu.1 c hc hcn hcj

theorem scoreAt_le_root (l : List Room) (n : ℕ) (h : heapUpTo l n) :
    ∀ i, i < n → scoreAt l i ≤ scoreAt l 0 := by
  intro i
  induction i using Nat.strong_induction_on with
  | _ i ih =>
    intro hi
    by_cases hi0 : i = 0
    · rw [hi0]
    · exact le_trans (h i (by omega) hi) (ih ((i - 1) / 2) (by omega) (by omega))

theorem downGo_eq_self (l : List Room) (i n : ℕ) (h : heapUpTo l n) :
    downGo l i n = (l, i) := by
  unfold downGo
  cases n with
  | zero => rfl
  | succ m =>
    simp only [downAux]
    by_cases h1 : 2 * i + 1 < m + 1
    · rw [if_pos h1]
      set j := if 2 * i + 2 < m + 1 ∧ scoreAt l (2 * i + 1) < scoreAt l (2 * i + 2)
        then 2 * i + 2 else 2 * i + 1 with hj
      have hjn : j < m + 1 := by
        by_cases hcond : 2 * i + 2 < m + 1 ∧ scoreAt l (2 * i + 1) < scoreAt l (2 * i + 2)
        · rw [hj, if_pos hcond]; exact hcond.1
        · rw [hj, if_neg hcond]; exact h1
      have hj12 : j = 2 * i + 1 ∨ j = 2 * i + 2 := by
        by_cases hcond : 2 * i + 2 < m + 1 ∧ scoreAt l (2 * i + 1) < scoreAt l (2 * i + 2)
        · right; rw [hj, if_pos hcond]
        · left; rw [hj, if_neg hcond]
      have hparj : (j - 1) / 2 = i := by omega
      have h3 := h j (by omega) hjn
      rw [hparj] at h3
      rw [if_neg (not_lt.mpr h3)]
    · rw [if_neg h1]

theorem upGo_eq_self (l : List Room) (j : ℕ) (hjl : j < l.length) (h : heapInv l) :
    upGo l j = l := by
  unfold upGo
  simp only [upAux]
  by_cases h0 : j = 0
  · rw [if_pos h0]
  · rw [if_neg h0]
    have h3 := h j (by omega) hjl
    rw [if_neg (not_lt.mpr h3)]

theorem heapFixGo_eq_self (l : List Room) (i : ℕ) (hi : i < l.length) (h : heapInv l) :
    heapFixGo l i = l := by
  unfold heapFixGo
  rw [downGo_eq_self l i l.length h]
  rw [if_neg (by omega : ¬ i < i)]
  exact upGo_eq_self l i hi h

theorem update_eq_self (l : List Room) (r : Room) (s : ℚ)
    (hidx : r.Index.toNat < l.length) (h : heapInv l) : RoomHeap.update l r s = l := by
  unfold RoomHeap.update
  by_cases hneg : r.Index < 0
  · rw [if_pos hneg]
  · rw [if_neg hneg]
    exact heapFixGo_eq_self l r.Index.toNat hidx h

theorem heapInitGo_eq_self (l : List Room) (h : heapInv l) : heapInitGo l = l := by
  unfold heapInitGo
  generalize (List.range (l.length / 2)).reverse = idxs
  induction idxs with
  | nil => rfl
  | cons a t ih =>
    rw [List.foldl_cons]
    rw [show (downGo l a l.length).1 = l from by rw [downGo_eq_self l a l.length h]]
    exact ih

theorem roomAt_dropLast (l : List Room) (k : ℕ) (hk : k < l.length - 1) :
    roomAt l.dropLast k = roomAt l k := by
  unfold roomAt
  rw [List.getD_eq_getElem?_getD, List.getD_eq_getElem?_getD, List.dropLast_eq_take,
    List.getElem?_take, if_pos hk]

theorem roomAt_append_left (l l2 : List Room) (k : ℕ) (hk : k < l.length) :
    roomAt (l ++ l2) k = roomAt l k := by
  unfold roomAt
  rw [List.getD_eq_getElem?_getD, List.getD_eq_getElem?_getD, List.getElem?_append, if_pos hk]

theorem roomAt_append_right (l : List Room) (r : Room) :
    roomAt (l ++ [r]) l.length = r := by
  unfold roomAt
  rw [List.getD_eq_getElem?_getD, List.getElem?_append,
    if_neg (by omega : ¬ l.length < l.length)]
  simp

theorem withIndex_withIndex (r : Room) (a b : ℤ) :
    withIndex (withIndex r a) b = withIndex r b := rfl

theorem scoreAt_append_left (l l2 : List Room) (k : ℕ) (hk : k < l.length) :
    scoreAt (l ++ l2) k = scoreAt l k := by
  rw [scoreAt_def, scoreAt_def, roomAt_append_left l l2 k hk]

/-- The mid-state of heap.Pop on a nonempty heap: the slice after Swap(0, n)
and down(0, n), which is what RoomHeap.Pop is applied to. -/
theorem heapPopGo_mid (l : List Room) (hne : l.length ≠ 0) :
    ∃ l2 : List Room,
      heapPopGo l = RoomHeap.popMethod l2 ∧
      l2.length = l.length ∧
      roomAt l2 (l.length - 1) = withIndex (roomAt l 0) ((l.length - 1 : ℕ) : ℤ) ∧
      (mapStrip l2).Perm (mapStrip l) ∧
      (idxOk l → idxOk l2) ∧
      (∀ Q : Room → Prop, (∀ r k, Q r → Q (withIndex r k)) →
        (∀ r ∈ l, Q r) → ∀ r ∈ l2, Q r) ∧
      (heapInv l → heapUpTo l2 (l.length - 1)) := by
  have h0l : 0 < l.length := by omega
  have hml : l.length - 1 < l.length := by omega
  set m := l.length - 1 with hm
  set l1 := swapIdx l 0 m with hl1
  have hl1len : l1.length = l.length := by rw [hl1, length_swapIdx]
  set l2 := (downGo l1 0 m).1 with hl2
  have hl2len : l2.length = l.length := by
    rw [hl2]
    unfold downGo
    rw [downAux_length, hl1len]
  refine ⟨l2, ?_, hl2len, ?_, ?_, ?_, ?_, ?_⟩
  · unfold heapPopGo
    rw [if_neg hne]
  · rw [hl2]
    unfold downGo
    rw [downAux_roomAt_ge m l1 0 m m le_rfl, hl1]
    exact roomAt_swapIdx_right l 0 m h0l hml
  · rw [hl2]
    unfold downGo
    exact (mapStrip_downAux m l1 0 m (by omega)).trans (mapStrip_swapIdx l 0 m h0l hml)
  · intro hidx
    rw [hl2]
    unfold downGo
    exact idxOk_downAux m l1 0 m (by omega) (idxOk_swapIdx l 0 m h0l hml hidx)
  · intro Q hQ hall
    rw [hl2]
    unfold downGo
    exact all_downAux Q hQ m l1 0 m (by omega) (all_swapIdx Q hQ l 0 m h0l hml hall)
  · intro hinv
    rw [hl2]
    unfold downGo
    apply downAux_heap m l1 0 m (by omega) (by omega)
    constructor
    · intro c hc hcn hpar
      have hc0 : c ≠ 0 := by omega
      have hcm : c ≠ m := by omega
      have hp0 : (c - 1) / 2 ≠ 0 := hpar
      have hpm : (c - 1) / 2 ≠ m := by omega
      rw [hl1, scoreAt_swapIdx_other l 0 m c hc0 hcm,
        scoreAt_swapIdx_other l 0 m ((c - 1) / 2) hp0 hpm]
      exact hinv c hc (by omega)
    · intro c hc hcn hpar hfalse
      omega

theorem popMethod_fail (l2 : List Room) (hne : l2.length ≠ 0)
    (hle : (roomAt l2 (l2.length - 1)).Score ≤ 0) :
    RoomHeap.popMethod l2 = (l2, .error .noAllocatableRoom) := by
  unfold RoomHeap.popMethod
  rw [if_neg hne]
  exact if_pos hle

theorem popMethod_ok (l2 : List Room) (hne : l2.length ≠ 0)
    (hpos : ¬ (roomAt l2 (l2.length - 1)).Score ≤ 0) :
    RoomHeap.popMethod l2 = (l2.dropLast, .ok (withIndex (roomAt l2 (l2.length - 1)) (-1))) := by
  unfold RoomHeap.popMethod
  rw [if_neg hne]
  exact if_neg hpos

theorem idxOk_append (l : List Room) (r : Room) (h : idxOk l)
    (hr : r.Index = (l.length : ℤ)) : idxOk (l ++ [r]) := by
  intro k hk
  rw [List.length_append, List.length_singleton] at hk
  by_cases hkl : k < l.length
  · rw [roomAt_append_left l [r] k hkl]
    exact h k hkl
  · have : k = l.length := by omega
    rw [this, roomAt_append_right l r, hr]

theorem idxOk_dropLast (l : List Room) (h : idxOk l) : idxOk l.dropLast := by
  intro k hk
  rw [List.length_dropLast] at hk
  rw [roomAt_dropLast l k hk]
  exact h k (by omega)

/-- heap.Push on a valid heap: length grows by one, the caller's pointer
sees Index = old length, the heap invariant is re-established by the
sift-up, index consistency is preserved, and membership is preserved up to
Index rewriting. -/
theorem heapPushGo_spec (l : List Room) (item : Room) (hinv : heapInv l) :
    (heapPushGo l item).1.length = l.length + 1 ∧
    (heapPushGo l item).2 = withIndex item (l.length : ℤ) ∧
    heapInv (heapPushGo l item).1 ∧
    (idxOk l → idxOk (heapPushGo l item).1) ∧
    (∀ Q : Room → Prop, (∀ r k, Q r → Q (withIndex r k)) →
      (∀ r ∈ l, Q r) → Q item → ∀ r ∈ (heapPushGo l item).1, Q r) := by
  unfold heapPushGo RoomHeap.pushMethod
  set l3 := l ++ [withIndex item (l.length : ℤ)] with hl3
  have hl3len : l3.length = l.length + 1 := by
    rw [hl3, List.length_append, List.length_singleton]
  have hidx3 : l3.length - 1 = l.length := by omega
  have hup : ∀ x ∈ upAux (l.length + 1) l3 l.length, x ∈ l3 ∨ True := fun x _ => Or.inr trivial
  constructor
  · show (upGo l3 (l3.length - 1)).length = l.length + 1
    rw [upGo, upAux_length, hl3len]
  constructor
  · rfl
  constructor
  · show heapInv (upGo l3 (l3.length - 1))
    have hres : (upGo l3 (l3.length - 1)).length = l.length + 1 := by
      rw [upGo, upAux_length, hl3len]
    unfold heapInv
    rw [hres, hidx3]
    unfold upGo
    apply upAux_heap (l.length + 1) l3 l.length (l.length + 1) (by omega) (by omega) (by omega)
    constructor
    · intro c hc hcn hcne
      have hcl : c < l.length := by omega
      have hpl : (c - 1) / 2 < l.length := by omega
      rw [hl3, scoreAt_append_left l _ c hcl, scoreAt_append_left l _ ((c - 1) / 2) hpl]
      exact hinv c hc hcl
    · intro c hc hcn hpar
      omega
  constructor
  · intro hidx
    show idxOk (upGo l3 (l3.length - 1))
    rw [upGo, hidx3]
    exact idxOk_upAux (l.length + 1) l3 l.length (by omega)
      (idxOk_append l (withIndex item (l.length : ℤ)) hidx rfl)
  · intro Q hQ hall hitem
    show ∀ r ∈ upGo l3 (l3.length - 1), Q r
    rw [upGo, hidx3]
    apply all_upAux Q hQ (l.length + 1) l3 l.length (by omega)
    intro r hr
    rw [hl3] at hr
    rcases List.mem_append.mp hr with h | h
    · exact hall r h
    · rw [List.mem_singleton.mp h]
      exact hQ item _ hitem

theorem length_replaceKey (k : ℤ) (v : Player) :
    ∀ l : List (ℤ × Player), (replaceKey l k v).length = l.length := by
  intro l
  induction l with
  | nil => rfl
  | cons kv t ih =>
    rcases kv with ⟨k0, v0⟩
    simp only [replaceKey]
    by_cases h : k0 = k
    · rw [if_pos h, List.length_cons, List.length_cons]
    · rw [if_neg h, List.length_cons, List.length_cons, ih]

theorem length_mapInsert (l : List (ℤ × Player)) (k : ℤ) (v : Player) :
    (mapInsert l k v).length =
      if k ∈ l.map Prod.fst then l.length else l.length + 1 := by
  unfold mapInsert
  by_cases h : k ∈ l.map Prod.fst
  · rw [if_pos h, if_pos h, length_replaceKey]
  · rw [if_neg h, if_neg h, List.length_append, List.length_singleton]

theorem lookup_replaceKey (k : ℤ) (v : Player) :
    ∀ l : List (ℤ × Player), k ∈ l.map Prod.fst → (replaceKey l k v).lookup k = some v := by
  intro l
  induction l with
  | nil => intro h; simp at h
  | cons kv t ih =>
    rcases kv with ⟨k0, v0⟩
    intro hmem
    simp only [replaceKey]
    by_cases h : k0 = k
    · rw [if_pos h]
      simp [List.lookup]
    · rw [if_neg h]
      have hbe : (k == k0) = false := by
        simp only [beq_eq_false_iff_ne, ne_eq]
        exact fun hc => h hc.symm
      simp only [List.lookup, hbe]
      apply ih
      simp only [List.map_cons, List.mem_cons] at hmem
      rcases hmem with hmem | hmem
      · exact absurd hmem.symm h
      · exact hmem

theorem lookup_mapInsert (l : List (ℤ × Player)) (k : ℤ) (v : Player) :
    (mapInsert l k v).lookup k = some v := by
  unfold mapInsert
  by_cases h : k ∈ l.map Prod.fst
  · rw [if_pos h]
    exact lookup_replaceKey k v l h
  · rw [if_neg h]
    induction l with
    | nil => simp [List.lookup]
    | cons kv t ih =>
      rcases kv with ⟨k0, v0⟩
      simp only [List.map_cons, List.mem_cons, not_or] at h
      have hbe : (k == k0) = false := by
        simp only [beq_eq_false_iff_ne, ne_eq]
        exact fun hc => h.1 hc
      simp only [List.cons_append, List.lookup, hbe]
      exact ih h.2

/-- Well-formed rooms of the running program: capacity 4, IDLE, at most 4
occupants, cached score consistent with the occupant count. -/
def WFroom (r : Room) : Prop :=
  r.Capacity = 4 ∧ r.State = 0 ∧ r.Players.length ≤ 4 ∧
    r.Score = calRoomScore (r.Players.length : ℤ) 4 0

theorem WF_withIndex (r : Room) (k : ℤ) (h : WFroom r) : WFroom (withIndex r k) := h

theorem score_pos_of_le3 (n : ℕ) (hn : n ≤ 3) : 0 < calRoomScore (n : ℤ) 4 0 := by
  interval_cases n
  · rw [show ((0 : ℕ) : ℤ) = 0 from rfl, calRoomScore_0_4_0]; norm_num
  · rw [show ((1 : ℕ) : ℤ) = 1 from rfl, calRoomScore_1_4_0]; norm_num
  · rw [show ((2 : ℕ) : ℤ) = 2 from rfl, calRoomScore_2_4_0]; norm_num
  · rw [show ((3 : ℕ) : ℤ) = 3 from rfl, calRoomScore_3_4_0]; norm_num

theorem score_4_nonpos : calRoomScore (4 : ℤ) 4 0 ≤ 0 := by
  rw [calRoomScore_4_4_0]; norm_num

theorem WF_score_le_zero (r : Room) (h : WFroom r) (hle : r.Score ≤ 0) :
    r.Players.length = 4 ∧ r.Score = calRoomScore (4 : ℤ) 4 0 := by
  obtain ⟨h1, h2, h3, hs⟩ := h
  have hlen : r.Players.length = 4 := by
    by_contra hne
    have hle3 : r.Players.length ≤ 3 := by omega
    have := score_pos_of_le3 r.Players.length hle3
    rw [← hs] at this
    linarith
  refine ⟨hlen, ?_⟩
  rw [hs, hlen]
  rfl

theorem WF_score_pos_len (r : Room) (h : WFroom r) (hpos : 0 < r.Score) :
    r.Players.length ≤ 3 := by
  obtain ⟨h1, h2, h3, hs⟩ := h
  by_contra hgt
  have h4 : r.Players.length = 4 := by omega
  rw [hs, h4] at hpos
  have := score_4_nonpos
  rw [show ((4 : ℕ) : ℤ) = 4 from rfl] at hpos
  linarith

/-- addPlayerIfPossible keeps a room well-formed whenever it had at most 3
occupants; the occupant count grows by at most one. -/
theorem addPlayer_WF (r : Room) (p : Player) (h : WFroom r) (hlen : r.Players.length ≤ 3) :
    WFroom (r.addPlayerIfPossible p).1 ∧
    (r.addPlayerIfPossible p).1.Players.length ≤ 4 := by
  obtain ⟨h1, h2, h3, hs⟩ := h
  unfold Room.addPlayerIfPossible Room.updateScore
  simp only
  have hins := length_mapInsert r.Players p.ID p
  have hlen4 : (mapInsert r.Players p.ID p).length ≤ 4 := by
    rw [hins]
    split <;> omega
  exact ⟨⟨h1, h2, hlen4, by rw [h1, h2]⟩, hlen4⟩

theorem mainInitRooms_length : mainInitRooms.length = 5 := by rfl

theorem mainInitRooms_score (i : ℕ) (hi : i < 5) :
    scoreAt mainInitRooms i = calRoomScore 0 4 0 := by
  interval_cases i <;> rfl

theorem heapInv_mainInitRooms : heapInv mainInitRooms := by
  intro c hc hcn
  rw [mainInitRooms_length] at hcn
  rw [mainInitRooms_score c (by omega), mainInitRooms_score ((c - 1) / 2) (by omega)]

theorem mainInitRooms_WF : ∀ r ∈ mainInitRooms, WFroom r := by
  intro r hr
  simp only [mainInitRooms, List.mem_map] at hr
  obtain ⟨i, hi, rfl⟩ := hr
  exact ⟨rfl, rfl, by norm_num, rfl⟩

theorem idxOk_mainInitRooms : idxOk mainInitRooms := by
  intro i h
  rw [mainInitRooms_length] at h
  interval_cases i <;> rfl

theorem pq0_eq : pq0 = mainInitRooms := heapInitGo_eq_self mainInitRooms heapInv_mainInitRooms

/-- The state invariant maintained by every queue operation: the resident
queue is a valid heap with consistent indices and well-formed rooms, and
every checked-out room is well-formed, has at most 3 occupants (it was
popped with positive score) and carries the checked-out sentinel. -/
def StInv (st : QState) : Prop :=
  heapInv st.q ∧ idxOk st.q ∧ (∀ r ∈ st.q, WFroom r) ∧
    ∀ r ∈ st.out, WFroom r ∧ r.Players.length ≤ 3 ∧ r.Index = -1

theorem mem_to_roomAt (l : List Room) (r : Room) (hr : r ∈ l) :
    ∃ i, i < l.length ∧ roomAt l i = r := by
  rw [List.mem_iff_get] at hr
  obtain ⟨⟨i, hi⟩, rfl⟩ := hr
  exact ⟨i, hi, roomAt_eq_getElem l i hi⟩

/-- On a heap whose top score is ≤ 0, every resident score equals the
full-room score (the only non-positive reachable score). -/
theorem allScores_s4 (l : List Room) (hheap : heapInv l) (hWF : ∀ r ∈ l, WFroom r)
    (htop : scoreAt l 0 ≤ 0) : ∀ r ∈ l, r.Score = calRoomScore (4 : ℤ) 4 0 := by
  intro r hr
  obtain ⟨i, hi, hri⟩ := mem_to_roomAt l r hr
  have h1 : r.Score ≤ scoreAt l 0 := by
    rw [← hri, ← scoreAt_def]
    exact scoreAt_le_root l l.length hheap i hi
  exact (WF_score_le_zero r (hWF r hr) (le_trans h1 htop)).2

theorem heapInv_of_allScores (l : List Room) (s : ℚ) (h : ∀ r ∈ l, r.Score = s) :
    heapInv l := by
  intro c hc hcn
  rw [scoreAt_def, scoreAt_def, h _ (roomAt_mem l c hcn), h _ (roomAt_mem l ((c - 1) / 2) (by omega))]

theorem stepOp_preserves (st : QState) (op : QOp) (h : StInv st) : StInv (stepOp st op) := by
  obtain ⟨hheap, hidx, hWF, hout⟩ := h
  cases op with
  | pop =>
    by_cases hne : st.q.length = 0
    · have hempty : heapPopGo st.q = (st.q, .error .indexOutOfRange) := by
        unfold heapPopGo
        rw [if_pos hne]
      simp only [stepOp, hempty]
      exact ⟨hheap, hidx, hWF, hout⟩
    · obtain ⟨l2, heq, hlen2, hitem, hperm, hidx2, hall2, hheap2⟩ := heapPopGo_mid st.q hne
      have hlen2ne : l2.length ≠ 0 := by omega
      have hitem2 : roomAt l2 (l2.length - 1) = withIndex (roomAt st.q 0) ((st.q.length - 1 : ℕ) : ℤ) := by
        rw [hlen2]; exact hitem
      by_cases hsc : (roomAt l2 (l2.length - 1)).Score ≤ 0
      · have hfail : heapPopGo st.q = (l2, .error .noAllocatableRoom) := by
          rw [heq, popMethod_fail l2 hlen2ne hsc]
        simp only [stepOp, hfail]
        have htop : scoreAt st.q 0 ≤ 0 := by
          rw [hitem2, withIndex_Score, ← scoreAt_def] at hsc
          exact hsc
        have hs4 : ∀ r ∈ st.q, r.Score = calRoomScore (4 : ℤ) 4 0 :=
          allScores_s4 st.q hheap hWF htop
        have hs4b : ∀ r ∈ l2, r.Score = calRoomScore (4 : ℤ) 4 0 := by
          apply hall2 (fun r => r.Score = calRoomScore (4 : ℤ) 4 0)
          · intro r k hs
            rw [withIndex_Score]
            exact hs
          · exact hs4
        exact ⟨heapInv_of_allScores l2 _ hs4b, hidx2 hidx,
          hall2 WFroom WF_withIndex hWF, hout⟩
      · have hok : heapPopGo st.q
            = (l2.dropLast, .ok (withIndex (roomAt l2 (l2.length - 1)) (-1))) := by
          rw [heq, popMethod_ok l2 hlen2ne hsc]
        simp only [stepOp, hok]
        have hrootWF : WFroom (roomAt l2 (l2.length - 1)) := by
          rw [hitem2]
          exact WF_withIndex _ _ (hWF _ (roomAt_mem st.q 0 (by omega)))
        refine ⟨?_, ?_, ?_, ?_⟩
        · intro c hc hcn
          rw [List.length_dropLast] at hcn
          rw [scoreAt_def, scoreAt_def, roomAt_dropLast l2 c hcn,
            roomAt_dropLast l2 ((c - 1) / 2) (by omega), ← scoreAt_def, ← scoreAt_def]
          have := hheap2 hheap
          rw [← hlen2] at this
          exact this c hc (by omega)
        · exact idxOk_dropLast l2 (hidx2 hidx)
        · intro r hr
          exact hall2 WFroom WF_withIndex hWF r (List.dropLast_subset l2 hr)
        · intro r hr
          rcases List.mem_append.mp hr with hr2 | hr2
          · exact hout r hr2
          · rw [List.mem_singleton.mp hr2]
            refine ⟨WF_withIndex _ _ hrootWF, ?_, rfl⟩
            apply WF_score_pos_len _ (WF_withIndex _ _ hrootWF)
            rw [withIndex_Score]
            exact lt_of_not_le hsc
  | push k p =>
    by_cases hk : k < st.out.length
    · have hr := hout (roomAt st.out k) (roomAt_mem st.out k hk)
      obtain ⟨hrWF, hrlen, hridx⟩ := hr
      set r1 := match p with
        | some pl => ((st.out.getD k default).addPlayerIfPossible pl).1
        | none => st.out.getD k default with hr1
      have hr1WF : WFroom r1 := by
        rw [hr1]
        cases p with
        | some pl => exact (addPlayer_WF _ pl hrWF hrlen).1
        | none => exact hrWF
      obtain ⟨hplen, hpcall, hpheap, hpidx, hpall⟩ := heapPushGo_spec st.q r1 hheap
      have hupd : RoomHeap.update (heapPushGo st.q r1).1 (heapPushGo st.q r1).2
          (heapPushGo st.q r1).2.Score = (heapPushGo st.q r1).1 := by
        apply update_eq_self _ _ _ _ hpheap
        rw [hpcall, withIndex_Index]
        rw [hplen]
        simp only [Int.toNat_ofNat]
        omega
      have hstep : stepOp st (QOp.push k p)
          = ⟨(heapPushGo st.q r1).1, st.out.eraseIdx k⟩ := by
        simp only [stepOp]
        rw [if_pos hk, ← hr1, hupd]
      rw [hstep]
      refine ⟨hpheap, hpidx hidx, hpall WFroom WF_withIndex hWF hr1WF, ?_⟩
      intro r hr
      exact hout r (List.mem_of_mem_eraseIdx hr)
    · have hstep : stepOp st (QOp.push k p) = st := by
        simp only [stepOp]
        rw [if_neg hk]
      rw [hstep]
      exact ⟨hheap, hidx, hWF, hout⟩
  | fix k =>
    by_cases hk : k < st.q.length
    · have hstep : stepOp st (QOp.fix k) = ⟨st.q, st.out⟩ := by
        simp only [stepOp]
        rw [if_pos hk, heapFixGo_eq_self st.q k hk hheap]
      rw [hstep]
      exact ⟨hheap, hidx, hWF, hout⟩
    · have hstep : stepOp st (QOp.fix k) = st := by
        simp only [stepOp]
        rw [if_neg hk]
      rw [hstep]
      exact ⟨hheap, hidx, hWF, hout⟩

theorem execOps_inv (ops : List QOp) : StInv (execOps ops) := by
  unfold execOps
  have hinit : StInv ⟨pq0, []⟩ := by
    rw [pq0_eq]  -- hmm: rw inside structure literal
    exact ⟨heapInv_mainInitRooms, idxOk_mainInitRooms, mainInitRooms_WF, by intro r hr; simp at hr⟩
  generalize hst : (⟨pq0, []⟩ : QState) = st at hinit
  clear hst
  induction ops generalizing st with
  | nil => exact hinit
  | cons op ops ih =>
    rw [List.foldl_cons]
    exact ih (stepOp st op) (stepOp_preserves st op hinit)

/-- C5: the Score Function of src/main.go is a pure function of its three
arguments (it is a function in this embedding, reading no other state) and
computes exactly the spec formula d = count/capacity - 0.2,
score = -7.8125 * d * d + 5 - penalty, where every operation is the
float32 operation the code performs: `calRoomScore` (translated from the
source) coincides with `specScoreF32` (written from the spec text) on all
inputs. -/
theorem c5_score_formula : ∀ count capacity penalty : ℤ,
    calRoomScore count capacity penalty = specScoreF32 count capacity penalty :=
  fun _ _ _ => rfl

/-- C6: addPlayerIfPossible (tryAdmit) always returns true, inserts the
player keyed by its id into the occupant map (an existing id is
overwritten, leaving the count unchanged; a new id appends, growing the
count by one), recomputes the score from the new occupant count via the
Score Function, and never consults the capacity (no precondition at all:
the equations hold for every room, full or overfull). -/
theorem c6_tryAdmit (r : Room) (p : Player) :
    (r.addPlayerIfPossible p).2 = true ∧
    (r.addPlayerIfPossible p).1.Players = mapInsert r.Players p.ID p ∧
    (r.addPlayerIfPossible p).1.Players.lookup p.ID = some p ∧
    (r.addPlayerIfPossible p).1.Players.length
      = (if p.ID ∈ r.Players.map Prod.fst then r.Players.length else r.Players.length + 1) ∧
    (r.addPlayerIfPossible p).1.Score
      = calRoomScore ((r.addPlayerIfPossible p).1.Players.length : ℤ) r.Capacity r.State ∧
    (r.addPlayerIfPossible p).1.Capacity = r.Capacity ∧
    (r.addPlayerIfPossible p).1.State = r.State :=
  ⟨rfl, rfl, lookup_mapInsert r.Players p.ID p, length_mapInsert r.Players p.ID p, rfl, rfl, rfl⟩

/-- C10: RoomHeap.update ignores its Score argument entirely: for every
queue state, room and pair of score values the resulting queues are
identical, because the body only calls heap.Fix at the room's stored
Index. -/
theorem c10_update_ignores_score (l : List Room) (pItem : Room) (s1 s2 : ℚ) :
    RoomHeap.update l pItem s1 = RoomHeap.update l pItem s2 := rfl

/-- C3: index-consistency invariant: after any sequence of queue operations
starting from the initialized queue, every resident room stores exactly its
backing-array position in Index, and every checked-out room carries the
sentinel -1. -/
theorem c3_index_consistency (ops : List QOp) :
    (∀ i, i < (execOps ops).q.length → (roomAt (execOps ops).q i).Index = (i : ℤ)) ∧
    ∀ r ∈ (execOps ops).out, r.Index = -1 := by
  obtain ⟨_, hidx, _, hout⟩ := execOps_inv ops
  exact ⟨hidx, fun r hr => (hout r hr).2.2⟩

theorem c3_witness :
    0 < (execOps []).q.length ∧ (roomAt (execOps []).q 0).Index = 0 := by
  have hlen : (execOps []).q.length = 5 := by
    show pq0.length = 5
    rw [pq0_eq, mainInitRooms_length]
  exact ⟨by omega, (c3_index_consistency []).1 0 (by omega)⟩

/-- C4: heap-order invariant: after any sequence of queue operations
starting from the initialized queue (sequences with failed popTop attempts
included: a pop on a non-positive top leaves its partial swap in place, but
every non-positive reachable score is the full-room score, so order is
kept), each slot's children score at most the slot itself. -/
theorem c4_heap_order (ops : List QOp) :
    ∀ i c, c < (execOps ops).q.length → (c = 2 * i + 1 ∨ c = 2 * i + 2) →
      scoreAt (execOps ops).q c ≤ scoreAt (execOps ops).q i := by
  obtain ⟨hheap, _, _, _⟩ := execOps_inv ops
  intro i c hc hch
  have h2 := hheap c (by omega) hc
  have hpar : (c - 1) / 2 = i := by omega
  rw [hpar] at h2
  exact h2

theorem c4_witness :
    1 < (execOps []).q.length ∧
    scoreAt (execOps []).q 1 ≤ scoreAt (execOps []).q 0 := by
  have hlen : (execOps []).q.length = 5 := by
    show pq0.length = 5
    rw [pq0_eq, mainInitRooms_length]
  exact ⟨by omega, c4_heap_order [] 0 1 (by omega) (Or.inl rfl)⟩

/-- C1 counterexample: on the queue with zero elements, popTop (heap.Pop of
container/heap, the operation main invokes) does NOT fail with the
EmptyQueue panic of RoomHeap.Pop: heap.Pop computes n = Len()-1 = -1 and
calls Swap(0, -1), which faults with the runtime index-out-of-range panic
before RoomHeap.Pop (and its emptiness check) is ever entered. -/
theorem c1_counterexample :
    heapPopGo [] = ([], .error .indexOutOfRange) ∧
    (heapPopGo []).2 ≠ .error .emptyHeap := by
  constructor
  · rfl
  · intro hcon
    rw [show heapPopGo [] = ([], .error .indexOutOfRange) from rfl] at hcon
    simp only at hcon
    exact PopErr.noConfusion (Except.error.inj hcon)

/-- C1 amended: popTop (the composite heap.Pop) raises NoAllocatableRoom
exactly when the queue's top (highest-score, by the root-max property
proved in the last conjunct) room's score is ≤ 0, and succeeds otherwise;
it NEVER raises EmptyQueue: on a zero-element queue it faults with the
index-out-of-range panic of Swap(0, -1) instead.  The EmptyQueue check
lives in RoomHeap.Pop, where emptiness is indeed decided before the score
check, but it is unreachable through the wrapper. -/
theorem c1_amended (l : List Room) (hne : l ≠ []) (hinv : heapInv l) :
    (heapPopGo [] = ([], .error .indexOutOfRange) ∧
      RoomHeap.popMethod ([] : List Room) = ([], .error .emptyHeap)) ∧
    (heapPopGo l).2 ≠ .error .emptyHeap ∧
    (((heapPopGo l).2 = .error .noAllocatableRoom) ↔ scoreAt l 0 ≤ 0) ∧
    (0 < scoreAt l 0 → ∃ r, (heapPopGo l).2 = .ok r ∧ r.Score = scoreAt l 0) ∧
    ∀ r ∈ l, r.Score ≤ scoreAt l 0 := by
  have hne2 : l.length ≠ 0 := fun h => hne (List.length_eq_zero.mp h)
  obtain ⟨l2, heq, hlen2, hitem, hperm, hidx2, hall2, hheap2⟩ := heapPopGo_mid l hne2
  have hlen2ne : l2.length ≠ 0 := by omega
  have hitem2 : roomAt l2 (l2.length - 1) = withIndex (roomAt l 0) ((l.length - 1 : ℕ) : ℤ) := by
    rw [hlen2]; exact hitem
  have hsc : (roomAt l2 (l2.length - 1)).Score = scoreAt l 0 := by
    rw [hitem2, withIndex_Score, scoreAt_def]
  refine ⟨⟨rfl, rfl⟩, ?_, ?_, ?_, ?_⟩
  · by_cases hle : (roomAt l2 (l2.length - 1)).Score ≤ 0
    · rw [heq, popMethod_fail l2 hlen2ne hle]
      intro hcon
      exact PopErr.noConfusion (Except.error.inj hcon)
    · rw [heq, popMethod_ok l2 hlen2ne hle]
      intro hcon
      exact Except.noConfusion hcon
  · constructor
    · intro hfail
      by_cases hle : (roomAt l2 (l2.length - 1)).Score ≤ 0
      · rw [← hsc]; exact hle
      · rw [heq, popMethod_ok l2 hlen2ne hle] at hfail
        exact absurd hfail (by intro h; exact Except.noConfusion h)
    · intro htop
      have hle : (roomAt l2 (l2.length - 1)).Score ≤ 0 := by rw [hsc]; exact htop
      rw [heq, popMethod_fail l2 hlen2ne hle]
  · intro hpos
    have hle : ¬ (roomAt l2 (l2.length - 1)).Score ≤ 0 := by
      rw [hsc]; exact not_le.mpr hpos
    refine ⟨withIndex (roomAt l2 (l2.length - 1)) (-1), ?_, ?_⟩
    · rw [heq, popMethod_ok l2 hlen2ne hle]
    · rw [withIndex_Score, hsc]
  · intro r hr
    obtain ⟨i, hi, hri⟩ := mem_to_roomAt l r hr
    rw [← hri, ← scoreAt_def]
    exact scoreAt_le_root l l.length hinv i hi

def roomW : Room :=
  { ID := 7, Capacity := 4, Players := [], Score := 2, State := 0, Index := 0 }

theorem heapInv_single (r : Room) : heapInv [r] := by
  intro c hc hcn
  simp only [List.length_singleton] at hcn
  omega

theorem c1_amended_witness :
    (heapPopGo [roomW]).2 ≠ .error .emptyHeap ∧
    (((heapPopGo [roomW]).2 = .error .noAllocatableRoom) ↔ scoreAt [roomW] 0 ≤ 0) := by
  have h := c1_amended [roomW] (by simp) (heapInv_single roomW)
  exact ⟨h.2.1, h.2.2.1⟩

def roomA : Room :=
  { ID := 0, Capacity := 4, Players := [], Score := -1, State := 0, Index := 0 }

def roomB : Room :=
  { ID := 1, Capacity := 4, Players := [], Score := -2, State := 0, Index := 1 }

def playerC : Player := { CreatedAt := 0, ID := 100, Name := "c" }

/-- C2 counterexample: a NoAllocatableRoom failure does NOT leave the queue
exactly as if the attempt had not happened.  On the two-room queue
[roomA (score -1), roomB (score -2)], the failed attempt returns a queue
whose rooms have been permuted (heap.Pop swapped the top to the last slot
and rewrote both Index fields) and no push-back ran: the result differs
from the original queue. -/
theorem c2_counterexample :
    allocate [roomA, roomB] playerC
      = ([withIndex roomB 0, withIndex roomA 1], .error .noAllocatableRoom) ∧
    [withIndex roomB 0, withIndex roomA 1] ≠ [roomA, roomB] := by
  constructor
  · have hswap : swapIdx [roomA, roomB] 0 1 = [withIndex roomB 0, withIndex roomA 1] := rfl
    have hdown : downGo [withIndex roomB 0, withIndex roomA 1] 0 1
        = ([withIndex roomB 0, withIndex roomA 1], 0) := by
      show downAux 1 _ 0 1 = _
      simp only [downAux]
      rw [if_neg (by omega : ¬ 2 * 0 + 1 < 1)]
    have hpop : heapPopGo [roomA, roomB]
        = ([withIndex roomB 0, withIndex roomA 1], .error .noAllocatableRoom) := by
      unfold heapPopGo
      rw [if_neg (by simp : ¬ ([roomA, roomB] : List Room).length = 0)]
      show RoomHeap.popMethod (downGo (swapIdx [roomA, roomB] 0 1) 0 1).1 = _
      rw [hswap, hdown]
      apply popMethod_fail
      · simp
      · show (roomAt [withIndex roomB 0, withIndex roomA 1] 1).Score ≤ 0
        show roomA.Score ≤ 0
        norm_num [roomA]
    unfold allocate
    rw [hpop]
  · intro hcon
    have h0 := congrArg (fun l => (l.getD 0 default).ID) hcon
    simp only [List.getD] at h0
    exact absurd h0 (by norm_num [roomA, roomB, withIndex])

/-- C2 amended: an allocation attempt failing with NoAllocatableRoom keeps
the element count and the multiset of rooms up to their Index bookkeeping
fields (no occupant map or score is touched, and the popped room is still
resident because the pop aborts before removal) — but the backing array is
permuted, with the former top left in the last slot, and no push-back is
performed. -/
theorem c2_amended (l : List Room) (p : Player)
    (hfail : (allocate l p).2 = .error .noAllocatableRoom) :
    (allocate l p).1.length = l.length ∧
    (mapStrip (allocate l p).1).Perm (mapStrip l) := by
  by_cases hne : l.length = 0
  · have hempty : heapPopGo l = (l, .error .indexOutOfRange) := by
      unfold heapPopGo
      rw [if_pos hne]
    unfold allocate at hfail ⊢
    rw [hempty] at hfail ⊢
    simp only at hfail
    exact absurd (Except.error.inj hfail) (fun h => PopErr.noConfusion h)
  · obtain ⟨l2, heq, hlen2, hitem, hperm, hidx2, hall2, hheap2⟩ := heapPopGo_mid l hne
    have hlen2ne : l2.length ≠ 0 := by omega
    by_cases hle : (roomAt l2 (l2.length - 1)).Score ≤ 0
    · have hpop : heapPopGo l = (l2, .error .noAllocatableRoom) := by
        rw [heq, popMethod_fail l2 hlen2ne hle]
      unfold allocate
      rw [hpop]
      exact ⟨hlen2, hperm⟩
    · have hpop : heapPopGo l
          = (l2.dropLast, .ok (withIndex (roomAt l2 (l2.length - 1)) (-1))) := by
        rw [heq, popMethod_ok l2 hlen2ne hle]
      unfold allocate at hfail
      rw [hpop] at hfail
      simp only at hfail
      exact absurd hfail (by intro h; exact Except.noConfusion h)

theorem c2_amended_witness :
    (allocate [roomA, roomB] playerC).1.length = ([roomA, roomB] : List Room).length ∧
    (mapStrip (allocate [roomA, roomB] playerC).1).Perm (mapStrip [roomA, roomB]) := by
  apply c2_amended [roomA, roomB] playerC
  have hswap : swapIdx [roomA, roomB] 0 1 = [withIndex roomB 0, withIndex roomA 1] := rfl
  have hdown : downGo [withIndex roomB 0, withIndex roomA 1] 0 1
      = ([withIndex roomB 0, withIndex roomA 1], 0) := by
    show downAux 1 _ 0 1 = _
    simp only [downAux]
    rw [if_neg (by omega : ¬ 2 * 0 + 1 < 1)]
  have hpop : heapPopGo [roomA, roomB]
      = ([withIndex roomB 0, withIndex roomA 1], .error .noAllocatableRoom) := by
    unfold heapPopGo
    rw [if_neg (by simp : ¬ ([roomA, roomB] : List Room).length = 0)]
    show RoomHeap.popMethod (downGo (swapIdx [roomA, roomB] 0 1) 0 1).1 = _
    rw [hswap, hdown]
    apply popMethod_fail
    · simp
    · show roomA.Score ≤ 0
      norm_num [roomA]
  unfold allocate
  rw [hpop]

def playersFull : List (ℤ × Player) :=
  [(0, ⟨0, 0, "a"⟩), (1, ⟨0, 1, "b"⟩), (2, ⟨0, 2, "d"⟩), (3, ⟨0, 3, "e"⟩)]

/-- The scenario room of the spec, section 8: capacity 4, IDLE, 4 occupants,
cached score computed by the code's score function. -/
def roomFull : Room :=
  { ID := 0, Capacity := 4, Players := playersFull, Score := calRoomScore 4 4 0,
    State := 0, Index := 0 }

def playerE : Player := { CreatedAt := 0, ID := 50, Name := "f" }

/-- C7: with capacity 4 and 4 occupants the float32 score the code computes
is -2^(-21) ≤ 0 (the real-arithmetic value would be exactly 0), so an
allocation attempt against the one-room queue fails with NoAllocatableRoom
and leaves the room resident with its 4 occupants and score untouched. -/
theorem c7_full_room :
    calRoomScore 4 4 0 ≤ 0 ∧
    allocate [roomFull] playerE = ([roomFull], .error .noAllocatableRoom) ∧
    roomFull.Players.length = 4 := by
  have hle : roomFull.Score ≤ 0 := by
    show calRoomScore 4 4 0 ≤ 0
    rw [calRoomScore_4_4_0]
    norm_num
  refine ⟨by rw [calRoomScore_4_4_0]; norm_num, ?_, rfl⟩
  have hswap : swapIdx [roomFull] 0 0 = [roomFull] := rfl
  have hdown : downGo [roomFull] 0 0 = ([roomFull], 0) := rfl
  have hpop : heapPopGo [roomFull] = ([roomFull], .error .noAllocatableRoom) := by
    unfold heapPopGo
    rw [if_neg (by simp : ¬ ([roomFull] : List Room).length = 0)]
    show RoomHeap.popMethod (downGo (swapIdx [roomFull] 0 0) 0 0).1 = _
    rw [hswap, hdown]
    apply popMethod_fail
    · simp
    · show roomFull.Score ≤ 0
      exact hle
  unfold allocate
  rw [hpop]

/-- C8: a successful popTop on a non-empty valid heap with positive top
score returns the top (its score equals the root score, which dominates
every resident score), removes one element, marks the returned room with
the checked-out sentinel, and leaves the remaining elements in valid heap
order; every remaining score is at most the returned score. -/
theorem c8_pop_success (l : List Room) (hinv : heapInv l) (hne : l ≠ [])
    (hpos : 0 < scoreAt l 0) :
    ∃ r l2, heapPopGo l = (l2, .ok r) ∧
      r.Index = -1 ∧ r.Score = scoreAt l 0 ∧
      l2.length = l.length - 1 ∧ heapInv l2 ∧
      ∀ x ∈ l2, x.Score ≤ r.Score := by
  have hne2 : l.length ≠ 0 := fun h => hne (List.length_eq_zero.mp h)
  obtain ⟨l2, heq, hlen2, hitem, hperm, hidx2, hall2, hheap2⟩ := heapPopGo_mid l hne2
  have hlen2ne : l2.length ≠ 0 := by omega
  have hitem2 : roomAt l2 (l2.length - 1) = withIndex (roomAt l 0) ((l.length - 1 : ℕ) : ℤ) := by
    rw [hlen2]; exact hitem
  have hsc : (roomAt l2 (l2.length - 1)).Score = scoreAt l 0 := by
    rw [hitem2, withIndex_Score, scoreAt_def]
  have hle : ¬ (roomAt l2 (l2.length - 1)).Score ≤ 0 := by
    rw [hsc]; exact not_le.mpr hpos
  refine ⟨withIndex (roomAt l2 (l2.length - 1)) (-1), l2.dropLast, ?_, rfl, ?_, ?_, ?_, ?_⟩
  · rw [heq, popMethod_ok l2 hlen2ne hle]
  · rw [withIndex_Score, hsc]
  · rw [List.length_dropLast, hlen2]
  · intro c hc hcn
    rw [List.length_dropLast] at hcn
    rw [scoreAt_def, scoreAt_def, roomAt_dropLast l2 c hcn,
      roomAt_dropLast l2 ((c - 1) / 2) (by omega), ← scoreAt_def, ← scoreAt_def]
    exact hheap2 hinv c hc (by omega)
  · intro x hx
    rw [withIndex_Score, hsc]
    have hx2 : x ∈ l2 := List.dropLast_subset l2 hx
    have hmem : stripIdx x ∈ mapStrip l2 := List.mem_map_of_mem stripIdx hx2
    rw [hperm.mem_iff] at hmem
    simp only [mapStrip, List.mem_map] at hmem
    obtain ⟨y, hy, hxy⟩ := hmem
    have hscore : x.Score = y.Score := by
      have h5 := congrArg Room.Score hxy
      rw [stripIdx_Score, stripIdx_Score] at h5
      exact h5.symm
    rw [hscore]
    obtain ⟨i, hi, hyi⟩ := mem_to_roomAt l y hy
    rw [← hyi, ← scoreAt_def]
    exact scoreAt_le_root l l.length hinv i hi

def roomP1 : Room :=
  { ID := 2, Capacity := 4, Players := [], Score := 3, State := 0, Index := 0 }

def roomP2 : Room :=
  { ID := 3, Capacity := 4, Players := [], Score := 1, State := 0, Index := 1 }

theorem c8_witness :
    heapInv [roomP1, roomP2] ∧ (0 : ℚ) < scoreAt [roomP1, roomP2] 0 ∧
    ∃ r l2, heapPopGo [roomP1, roomP2] = (l2, .ok r) ∧
      r.Index = -1 ∧ r.Score = scoreAt [roomP1, roomP2] 0 ∧
      l2.length = ([roomP1, roomP2] : List Room).length - 1 ∧ heapInv l2 ∧
      ∀ x ∈ l2, x.Score ≤ r.Score := by
  have hinv : heapInv [roomP1, roomP2] := by
    intro c hc hcn
    simp only [List.length_cons, List.length_nil] at hcn
    have hc1 : c = 1 := by omega
    rw [hc1]
    show roomP2.Score ≤ roomP1.Score
    norm_num [roomP1, roomP2]
  have hpos : (0 : ℚ) < scoreAt [roomP1, roomP2] 0 := by
    show (0 : ℚ) < roomP1.Score
    norm_num [roomP1]
  exact ⟨hinv, hpos, c8_pop_success [roomP1, roomP2] hinv (by simp) hpos⟩

/-- C9 counterexample: under the code's float32 arithmetic the score is NOT
strictly decreasing as the count moves away from 0.2 * capacity: with
capacity 1000000, the counts 200000 (= 0.2 * capacity) and 200001 (strictly
farther from it, both within [0, capacity]) receive the identical float32
score 5. -/
theorem c9_counterexample :
    calRoomScore 200000 1000000 0 = calRoomScore 200001 1000000 0 ∧
    calRoomScore 200000 1000000 0 = 5 :=
  ⟨by rw [calRoomScore_200000_1000000_0, calRoomScore_200001_1000000_0],
    calRoomScore_200000_1000000_0⟩

/-- C9 amended: in exact arithmetic the spec score formula, as a function of
a real-valued count, is strictly maximized at count = 0.2 * capacity
(= capacity / 5) and strictly decreases as the count moves away from that
value in either direction within [0, capacity]; under the code's float32
arithmetic the decrease is only non-strict (see the counterexample). -/
theorem c9_amended (capacity penalty : ℚ) (hcap : 0 < capacity) :
    (∀ c : ℚ, 0 ≤ c → c ≤ capacity → c ≠ capacity / 5 →
      specScoreR c capacity penalty < specScoreR (capacity / 5) capacity penalty) ∧
    (∀ c1 c2 : ℚ, 0 ≤ c1 → c1 ≤ capacity → 0 ≤ c2 → c2 ≤ capacity →
      |c1 - capacity / 5| < |c2 - capacity / 5| →
      specScoreR c2 capacity penalty < specScoreR c1 capacity penalty) := by
  have hcapne : capacity ≠ 0 := ne_of_gt hcap
  have hq : capacity / 5 / capacity = 1 / 5 := by
    rw [div_right_comm, div_self hcapne]
  have hdiv : ∀ c : ℚ, c / capacity - 1 / 5 = (c - capacity / 5) / capacity := by
    intro c
    rw [sub_div, hq]
  have hzero : capacity / 5 / capacity - 1 / 5 = 0 := by
    rw [hq, sub_self]
  constructor
  · intro c hc0 hccap hcne
    unfold specScoreR
    rw [hzero]
    have hne2 : c / capacity - 1 / 5 ≠ 0 := by
      rw [hdiv]
      exact div_ne_zero (sub_ne_zero.mpr hcne) hcapne
    have hpos2 : 0 < (c / capacity - 1 / 5) ^ 2 :=
      lt_of_le_of_ne (sq_nonneg _) (Ne.symm (pow_ne_zero 2 hne2))
    nlinarith [hpos2]
  · intro c1 c2 h10 h1c h20 h2c habs
    unfold specScoreR
    have h2 : (c1 - capacity / 5) ^ 2 < (c2 - capacity / 5) ^ 2 := by
      nlinarith [sq_abs (c1 - capacity / 5), sq_abs (c2 - capacity / 5),
        abs_nonneg (c1 - capacity / 5), abs_nonneg (c2 - capacity / 5), habs]
    have h3 : (c1 / capacity - 1 / 5) ^ 2 < (c2 / capacity - 1 / 5) ^ 2 := by
      rw [hdiv c1, hdiv c2, div_pow, div_pow]
      gcongr
    linarith [h3]

theorem c9_amended_witness : specScoreR 3 5 0 < specScoreR 1 5 0 := by
  have habs : |(1 : ℚ) - 5 / 5| < |(3 : ℚ) - 5 / 5| := by
    rw [show (1 : ℚ) - 5 / 5 = 0 from by norm_num, show (3 : ℚ) - 5 / 5 = 2 from by norm_num,
      abs_zero, show |(2 : ℚ)| = 2 from abs_of_pos (by norm_num)]
    norm_num
  exact (c9_amended 5 0 (by norm_num)).2 1 3 (by norm_num) (by norm_num) (by norm_num)
    (by norm_num) habs
